import Mathlib

/-!
Verification of "Insight+ for Firefish" (content script) against its
natural-language specification.

The JavaScript source (src/content.js) is shallowly embedded here:
pure helpers become Lean functions over `List Char` / `ℚ`, and the
stateful rate-limit machinery becomes explicit state passing with an
event-queue model of JS timers.  JS numbers are modelled by `ℚ`
(exact arithmetic; the spec's claims are stated over exact decimals),
JS `null` / `undefined` / `NaN` results by `Option`.
-/

namespace Firefish

/-! ## Input normalizer: `utils.parseNumberFromText` (content.js lines 109-189)

The JS function first does `String(text).trim()` and then strips every
character outside `[0-9.,-]`.  Since whitespace is removed by that filter
anyway, the `trim` is observationally irrelevant and the embedding starts
from the filter.  `parseFloat` is modelled for the character set that can
actually reach it (digits, `.`, `,`, a leading `-`): an optional sign,
then the longest `digits* ('.' digits*)?` prefix, `NaN` (= `none`) when
that prefix contains no digit.  Exponents and leading whitespace, which
`parseFloat` would also accept, cannot occur after the filter. -/

/-- The character class kept by `s.replace(/[^0-9.,-]/g, '')`. -/
def keepChar (c : Char) : Bool :=
  c.isDigit || c = '.' || c = ',' || c = '-'

/-- `s.replace(/[^0-9.,-]/g, '')`. -/
def cleanup (text : List Char) : List Char :=
  text.filter keepChar

/-- JS `String.prototype.lastIndexOf` for a single character: the index of
the last occurrence, `-1` when absent. -/
def lastIndexOf (c : Char) : List Char → Int
  | [] => -1
  | a :: t =>
    if lastIndexOf c t ≥ 0 then lastIndexOf c t + 1
    else if a = c then 0 else -1

/-- JS `String.prototype.split` on a one-character separator. -/
def splitOnChar (sep : Char) : List Char → List (List Char)
  | [] => [[]]
  | a :: t =>
    match splitOnChar sep t with
    | [] => [[]]
    | h :: r => if a = sep then [] :: h :: r else (a :: h) :: r

/-- `str.split(sep).join('')` — the code's `stripThousands`. -/
def stripThousands (sep : Char) (l : List Char) : List Char :=
  l.filter (fun c => c ≠ sep)

/-- The code's "collapse multiple decimals to last":
`parts = s.split(decimalSep); decimalPart = parts.pop();
 s = parts.join('') + decimalSep + decimalPart`. -/
def collapseToLast (sep : Char) (l : List Char) : List Char :=
  (splitOnChar sep l).dropLast.flatten ++ sep :: (splitOnChar sep l).getLastD []

/-- `s.replace(/,/g, '.')`. -/
def jsReplaceCommaDot (l : List Char) : List Char :=
  l.map (fun c => if c = ',' then '.' else c)

/-- The code's embedded-minus removal (a global regex replace guarded by a
negative lookahead for start-of-string): every minus sign except one at
index 0 is removed. -/
def removeNonLeadingMinus (l : List Char) : List Char :=
  if l.head? = some '-' then '-' :: l.tail.filter (fun c => c ≠ '-')
  else l.filter (fun c => c ≠ '-')

/-- Value of a digit string read in base 10. -/
def digitsToNat (l : List Char) : Nat :=
  l.foldl (fun n c => n * 10 + (c.toNat - '0'.toNat)) 0

/-- The unsigned part of JS `parseFloat`: the longest
`digits* ('.' digits*)?` prefix, `NaN` (= `none`) if that prefix has no
digit, and anything after the prefix is ignored. -/
def parseFloatMag (r : List Char) : Option ℚ :=
  let intD := r.takeWhile Char.isDigit
  let rest := r.dropWhile Char.isDigit
  let frac := if rest.head? = some '.' then rest.tail.takeWhile Char.isDigit else []
  if intD = [] ∧ frac = [] then none
  else some ((digitsToNat intD : ℚ) + (digitsToNat frac : ℚ) / 10 ^ frac.length)

/-- JS `parseFloat`, restricted to the character set reachable after
`cleanup` (no exponents, no whitespace): an optional sign followed by
`parseFloatMag`. -/
def parseFloatQ (l : List Char) : Option ℚ :=
  if l.head? = some '-' then (parseFloatMag l.tail).map (fun q => -q)
  else if l.head? = some '+' then parseFloatMag l.tail
  else parseFloatMag l

/-- Case 1 of `parseNumberFromText`: both separators present.  The code
picks the separator with the larger `lastIndexOf` as decimal, strips the
other one entirely, collapses repeated decimal separators to the last
one, rewrites a comma decimal to a dot, removes embedded minus signs and
calls `parseFloat`. -/
def parseCaseBoth (s : List Char) : Option ℚ :=
  if lastIndexOf ',' s > lastIndexOf '.' s then
    parseFloatQ (removeNonLeadingMinus (jsReplaceCommaDot (collapseToLast ',' (stripThousands '.' s))))
  else
    parseFloatQ (removeNonLeadingMinus (collapseToLast '.' (stripThousands ',' s)))

/-- Case 2 of `parseNumberFromText`: only commas.  Exactly 3 trailing
characters ⇒ thousands; otherwise with several commas and a 2-character
last group ⇒ decimal with thousands; otherwise all commas become dots and
the result goes to `parseFloat`. -/
def parseCaseComma (s : List Char) : Option ℚ :=
  if (s.length : Int) - lastIndexOf ',' s - 1 = 3 then
    parseFloatQ (removeNonLeadingMinus (stripThousands ',' s))
  else if 1 < s.count ',' ∧ ((splitOnChar ',' s).getLastD []).length = 2 then
    parseFloatQ (removeNonLeadingMinus
      ((splitOnChar ',' s).dropLast.flatten ++ '.' :: (splitOnChar ',' s).getLastD []))
  else
    parseFloatQ (removeNonLeadingMinus (jsReplaceCommaDot s))

/-- Case 3 of `parseNumberFromText`: only dots.  Exactly 3 trailing
characters ⇒ thousands; otherwise the string goes to `parseFloat`
unchanged (there is no multi-dot decimal branch, unlike the comma case). -/
def parseCaseDot (s : List Char) : Option ℚ :=
  if (s.length : Int) - lastIndexOf '.' s - 1 = 3 then
    parseFloatQ (removeNonLeadingMinus (stripThousands '.' s))
  else
    parseFloatQ (removeNonLeadingMinus s)

/-- `utils.parseNumberFromText` (content.js 109-189), with `NaN` as
`none`. -/
def parseNumberFromText (text : List Char) : Option ℚ :=
  if cleanup text = [] then none
  else if 0 < (cleanup text).count ',' ∧ 0 < (cleanup text).count '.' then
    parseCaseBoth (cleanup text)
  else if 0 < (cleanup text).count ',' then
    parseCaseComma (cleanup text)
  else if 0 < (cleanup text).count '.' then
    parseCaseDot (cleanup text)
  else
    parseFloatQ (removeNonLeadingMinus (cleanup text))

/-- The spec's `parseAmount` on whole strings is the source's
`parseNumberFromText`. -/
def parseAmount (s : String) : Option ℚ :=
  parseNumberFromText s.data

/-! ## Performance calculator: `cryptoService.calculateFirefishBTCPerformance`
(content.js 1087-1165).  Only the numeric fields are embedded; the
`formatCurrency` / `formatPercentage` presentation strings are the
`Intl.NumberFormat` renderings of exactly these rationals.  The spec's
field names map to the source's: `netResult` is `theoreticalResult`,
`interestCost` is `loanInterestCost`, `outperforming` is
`isOutperforming`. -/

/-- The loan record produced by `extractFirefishLoanData`. -/
structure FirefishLoanData where
  currency : String
  loanAmount : ℚ
  interestRate : ℚ
  collateralBTC : ℚ
  provisionDate : String
deriving DecidableEq, Repr

/-- The numeric content of the object returned by
`calculateFirefishBTCPerformance` (its `raw` block plus the status and the
absolute theoretical value that feed the display). -/
structure FirefishPerformance where
  btcValueChange : ℚ
  btcPercentageChange : ℚ
  loanInterestCost : ℚ
  theoreticalResult : ℚ
  theoreticalValue : ℚ
  isOutperforming : Bool
  theoreticalLabel : String
deriving DecidableEq, Repr

/-- content.js 1087-1165.  In ℚ, `x / 0 = 0` where JS would produce
`Infinity`; every claim about this function is scoped to
`historicalPrice > 0`, and the pipeline (see `processFirefishLoanCard`)
never calls it with a zero historical price. -/
def calculateFirefishBTCPerformance (loanData : FirefishLoanData)
    (currentPrice historicalPrice : ℚ) : FirefishPerformance :=
  let btcValueChange := loanData.loanAmount * (currentPrice / historicalPrice - 1)
  let btcPercentageChange := (currentPrice - historicalPrice) / historicalPrice * 100
  let loanInterestCost := loanData.loanAmount * (loanData.interestRate / 100)
  let isOutperforming := decide (btcValueChange > loanInterestCost)
  let theoreticalResult := btcValueChange - loanInterestCost
  let theoreticalLabel := if theoreticalResult > 0 then "Theoretical Gain" else "Theoretical Loss"
  let theoreticalValue := |theoreticalResult|
  { btcValueChange := btcValueChange
    btcPercentageChange := btcPercentageChange
    loanInterestCost := loanInterestCost
    theoreticalResult := theoreticalResult
    theoreticalValue := theoreticalValue
    isOutperforming := isOutperforming
    theoreticalLabel := theoreticalLabel }

/-! ## Request throttler: `FirefishBTCApiClient.isRequestingTooFast` /
`recordRequest` (content.js 888-904, 934-943).  `requestHistory` is the
client's array of request timestamps (milliseconds). -/

/-- content.js 888-904.  Note the source takes `slice(-5)` — only the last
five entries of the history — before counting how many fall in the
trailing 30 seconds, and then compares that count against `> 5`. -/
def isRequestingTooFast (requestHistory : List Int) (now : Int) : Bool :=
  if requestHistory.length < 2 then false
  else
    let recentRequests := requestHistory.drop (requestHistory.length - 5)
    let requestsInLast30s := (recentRequests.filter (fun ts => now - 30000 < ts)).length
    decide (5 < requestsInLast30s)

/-- content.js 934-943: push the new timestamp, then `shift()` one entry
off the front when the history exceeds 10 entries. -/
def recordRequest (requestHistory : List Int) (now : Int) : List Int :=
  let h := requestHistory ++ [now]
  if 10 < h.length then h.drop 1 else h

/-! ## Rate-limit coordinator: `startRateLimitCountdown` (content.js
563-594), `resolveRateLimit` (635-666), `addPendingCard` /
`removePendingCard` (669-679) and `FirefishBTCAnalyzer.processPendingCards`
(2184-2202), together with an event-queue model of the JS timers.

A `setInterval` timer re-arms itself 1000 ms after each tick; a
`setTimeout` timer fires once.  `clearInterval` / `clearTimeout` remove
the timer with the stored id (a no-op when the stored id is `none`,
matching JS `clearTimeout(null)`).  The interval callback reads the
*current* `rateLimitedAt` (JS closures capture the mutable state): with
`rateLimitedAt = null` JS computes `Date.now() - null = Date.now()`,
modelled by `getD 0`.  The registered resolution callback
(content.js 2737-2743) is recorded as an invocation timestamp; it
schedules `processPendingCards` one second later. -/

/-- One armed JS timer. -/
structure ArmedTimer where
  id : Nat
  fireAt : Nat
  isInterval : Bool
deriving DecidableEq, Repr

/-- The process-wide `rateLimitState` object plus the analyzer structures
its operations touch (`pendingCards`, the analyzer's `processingQueue`,
the per-card `data-firefish-btc-processed` markers) and the event-loop
bookkeeping (`timers`, fresh ids, callback invocation times).  Cards are
identified by numbers. -/
structure RLState where
  isRateLimited : Bool
  rateLimitedAt : Option Nat
  retryTimeout : Option Nat
  countdownInterval : Option Nat
  pendingCards : List Nat
  processingQueue : List Nat
  processedMarks : List Nat
  callbackFiredAt : List Nat
  timers : List ArmedTimer
  nextTimerId : Nat
deriving DecidableEq, Repr

/-- The initial `rateLimitState` (content.js 541-549). -/
def initialRLState : RLState :=
  { isRateLimited := false, rateLimitedAt := none, retryTimeout := none,
    countdownInterval := none, pendingCards := [], processingQueue := [],
    processedMarks := [], callbackFiredAt := [], timers := [], nextTimerId := 0 }

/-- `clearInterval` / `clearTimeout` on a stored (possibly null) timer id. -/
def clearStoredTimer (st : RLState) (tid : Option Nat) : RLState :=
  { st with timers := st.timers.filter (fun tm => some tm.id ≠ tid) }

/-- content.js 563-594.  The countdown interval, when present, is cleared
and re-armed; the state is stamped limited-at-now; a fresh display
interval (first tick at `now + 1000`) and a fresh 60 s resolution timeout
are armed.  The previously stored `retryTimeout` is overwritten WITHOUT a
`clearTimeout` — exactly as in the source, which clears only
`countdownInterval`. -/
def startRateLimitCountdown (now : Nat) (st : RLState) : RLState :=
  let st1 := clearStoredTimer st st.countdownInterval
  let st2 := { st1 with isRateLimited := true, rateLimitedAt := some now }
  let intervalId := st2.nextTimerId
  let st3 := { st2 with
    timers := st2.timers ++ [(⟨intervalId, now + 1000, true⟩ : ArmedTimer)],
    countdownInterval := some intervalId,
    nextTimerId := intervalId + 1 }
  let timeoutId := st3.nextTimerId
  { st3 with
    timers := st3.timers ++ [(⟨timeoutId, now + 60000, false⟩ : ArmedTimer)],
    retryTimeout := some timeoutId,
    nextTimerId := timeoutId + 1 }

/-- content.js 635-666: clear both stored timers, reset the limited flag
and stamp, and invoke the registered resolution callback.  The
`pendingCards` set is NOT touched here (only the per-card DOM messages
are removed). -/
def resolveRateLimit (now : Nat) (st : RLState) : RLState :=
  let st1 := clearStoredTimer st st.countdownInterval
  let st2 := { st1 with countdownInterval := none }
  let st3 := clearStoredTimer st2 st2.retryTimeout
  let st4 := { st3 with retryTimeout := none }
  let st5 := { st4 with isRateLimited := false, rateLimitedAt := none }
  { st5 with callbackFiredAt := st5.callbackFiredAt ++ [now] }

/-- content.js 669-674: `rateLimitState.pendingCards.add(loanCard)` (a JS
`Set`: inserting an element already present is a no-op). -/
def addPendingCard (card : Nat) (st : RLState) : RLState :=
  { st with pendingCards :=
      if card ∈ st.pendingCards then st.pendingCards else st.pendingCards ++ [card] }

/-- content.js 677-679. -/
def removePendingCard (card : Nat) (st : RLState) : RLState :=
  { st with pendingCards := st.pendingCards.filter (fun c => c ≠ card) }

/-- JS `Set.prototype.add` for the analyzer's `processingQueue`. -/
def setInsert (q : List Nat) (c : Nat) : List Nat :=
  if c ∈ q then q else q ++ [c]

/-- content.js 2184-2202: snapshot `pendingCards`, clear the set, then for
each snapshotted card remove its processed marker and add it to the
processing queue (after which `processQueuedCards` runs the queue). -/
def processPendingCards (st : RLState) : RLState :=
  let pending := st.pendingCards
  { st with
    pendingCards := [],
    processedMarks := st.processedMarks.filter (fun c => c ∉ pending),
    processingQueue := pending.foldl setInsert st.processingQueue }

/-- The earliest-firing armed timer (ties go to the earliest-registered
one, which comes first in the list). -/
def nextTimer : List ArmedTimer → Option ArmedTimer
  | [] => none
  | tm :: ts =>
    match nextTimer ts with
    | none => some tm
    | some u => if tm.fireAt ≤ u.fireAt then some tm else some u

/-- Fire one timer.  A `setInterval` instance re-arms itself 1000 ms
later and its callback (content.js 578-588) resolves the rate limit when
60 s have elapsed since the current `rateLimitedAt`, otherwise only
updates the display; a `setTimeout` instance (content.js 591-593) resolves
the rate limit unconditionally. -/
def fireTimer (st : RLState) (tm : ArmedTimer) : RLState :=
  let rest := st.timers.filter (fun x => x.id ≠ tm.id)
  if tm.isInterval then
    let st1 := { st with timers := rest ++ [(⟨tm.id, tm.fireAt + 1000, true⟩ : ArmedTimer)] }
    if 60000 ≤ tm.fireAt - st1.rateLimitedAt.getD 0 then resolveRateLimit tm.fireAt st1
    else st1
  else
    resolveRateLimit tm.fireAt { st with timers := rest }

/-- Run the timer event loop for at most `fuel` firings. -/
def runTimers : Nat → RLState → RLState
  | 0, st => st
  | fuel + 1, st =>
    match nextTimer st.timers with
    | none => st
    | some tm => runTimers fuel (fireTimer st tm)

/-! ## Price cache, historical side: `getHistoricalPrice`
(content.js 764-851).  The permanent `priceCache.historical` map is keyed
by `"<dd-mm-yyyy>_<lowercase currency>"` and stores `{price, timestamp}`
records; the `price` field is whatever
`data.market_data.current_price[currency.toLowerCase()]` produced —
possibly `undefined` (= `none`) when the response lacks the currency.
The network part of one call is abstracted as a `HistFetchResult`
parameter; `networkRequest` records whether the call left the cache. -/

/-- JS `String.prototype.toLowerCase`, computed per character (`Char`
has the Unicode simple lower-casing as `Char.toLower`; the currency
codes in play are ASCII). -/
def jsToLower (s : String) : String :=
  ⟨s.data.map Char.toLower⟩

/-- A stored `{price, timestamp}` record. -/
structure HistEntry where
  price : Option ℚ
  timestamp : Int
deriving DecidableEq, Repr

/-- `priceCache.historical` as an association list (JS `Map`). -/
abbrev HistCache := List (String × HistEntry)

/-- `priceCache.historical.has(key)`. -/
def histHas (cache : HistCache) (key : String) : Bool :=
  cache.any (fun e => e.1 = key)

/-- `priceCache.historical.get(key).price` (`none` when absent or when the
stored price is `undefined`). -/
def histGetPrice (cache : HistCache) (key : String) : Option ℚ :=
  match cache.find? (fun e => e.1 = key) with
  | some e => e.2.price
  | none => none

/-- `priceCache.historical.set(key, {price, timestamp: now})` — JS `Map`
semantics: replace in place if present, else append. -/
def histSet (cache : HistCache) (key : String) (price : Option ℚ) (now : Int) : HistCache :=
  if cache.any (fun e => e.1 = key) then
    cache.map (fun e => if e.1 = key then (key, (⟨price, now⟩ : HistEntry)) else e)
  else
    cache ++ [(key, (⟨price, now⟩ : HistEntry))]

/-- The outcome of the `fetch` inside `getHistoricalPrice`: a parsed
response price map, an HTTP 429, another HTTP error status, or a thrown
error. -/
inductive HistFetchResult where
  | success (prices : List (String × ℚ))
  | http429
  | httpError (status : Nat)
  | jsError (message : String)
deriving DecidableEq, Repr

/-- Result of one `getHistoricalPrice` call: the updated cache, the
returned value, and whether a network request was issued. -/
structure HistStepOut where
  cache : HistCache
  result : Option ℚ
  networkRequest : Bool
deriving DecidableEq

/-- The cache-relevant behaviour of one `getHistoricalPrice(date,
currency)` call (content.js 764-851), for an already-normalized cache
`key` (the date conversion and the rate-limit side effects on failures
are outside this model).  On a cache hit the stored price is returned
with no request (lines 771-773); on a miss with a successful response
the looked-up price — `undefined` when the currency is absent — is
stored permanently and returned (lines 810-825); failures return `null`
and cache nothing. -/
def getHistoricalPriceStep (cache : HistCache) (key : String) (currency : String)
    (fetch : HistFetchResult) (now : Int) : HistStepOut :=
  if histHas cache key then
    ⟨cache, histGetPrice cache key, false⟩
  else
    match fetch with
    | .success prices =>
      let price := (prices.find? (fun e => e.1 = jsToLower currency)).map (fun e => e.2)
      ⟨histSet cache key price now, price, true⟩
    | _ => ⟨cache, none, true⟩

/-- Apply a sequence of `getHistoricalPrice` calls
(key, currency, fetch outcome, timestamp) to the cache. -/
def applyHistSteps (ops : List (String × String × HistFetchResult × Int))
    (cache : HistCache) : HistCache :=
  ops.foldl (fun c op => (getHistoricalPriceStep c op.1 op.2.1 op.2.2.1 op.2.2.2).cache) cache

/-! ## Fetch pipeline: `FirefishBTCAnalyzer.processFirefishLoanCard`
(content.js 2019-2091).  The asynchronous environment of one call —
what extraction, the current-price fetch and the historical-price fetch
resolved to, and whether the coordinator is limited at the historical
check — is passed explicitly, and the DOM publication is abstracted into
an outcome. -/

/-- What one `processFirefishLoanCard` run publishes for its card. -/
inductive CardOutcome where
  | skippedProcessed
  | errorShown (message : String)
  | queuedForRetry
  | resultShown (performance : FirefishPerformance)
  | resultShownNaN
deriving DecidableEq, Repr

/-- The resolved environment of one `processFirefishLoanCard` call. -/
structure PipelineEnv where
  alreadyProcessed : Bool
  loanData : Option FirefishLoanData
  currentPrices : Option (List (String × ℚ))
  historicalPrice : Option ℚ
  isRateLimited : Bool

/-- content.js 2019-2091.  The historical-price guard is JS
`!historicalPrice`, which is true for `null`/`undefined` (`none`) AND for
`0` — a zero price takes the failure branch before any division happens.
When the current-price map lacks the card's currency the JS arithmetic
would produce `NaN` fields (`resultShownNaN`); `calculateFirefishBTCPerformance`
itself returns non-null for the numeric inputs modelled here, so the
`!performance` branch is unreachable. -/
def processFirefishLoanCard (env : PipelineEnv) : CardOutcome :=
  if env.alreadyProcessed then .skippedProcessed
  else
    match env.loanData with
    | none => .errorShown "Could not extract loan data"
    | some ld =>
      match env.currentPrices with
      | none => .errorShown "Failed to fetch current BTC prices"
      | some prices =>
        let currentPrice := (prices.find? (fun e => e.1 = jsToLower ld.currency)).map (fun e => e.2)
        let historicalFalsy :=
          match env.historicalPrice with
          | none => true
          | some p => p = 0
        if historicalFalsy then
          if env.isRateLimited then .queuedForRetry
          else .errorShown ("Failed to fetch BTC price for " ++ ld.provisionDate)
        else
          match env.historicalPrice, currentPrice with
          | some hp, some cp => .resultShown (calculateFirefishBTCPerformance ld cp hp)
          | _, _ => .resultShownNaN

/-! ## Portfolio aggregator: `uiEnhancer.aggregatePortfolioData`
(content.js 1546-1603).  The DOM is abstracted per card: whether the card
is PENDING, whether it currently carries a `.firefish-btc-results`
element (and if so its `firefish-btc-outperforming` class and the parsed
last `_fieldValue` text), whether it carries a `.firefish-btc-error`
element, and the parsed loan-amount text.  The source queries result and
error elements document-wide and filters each by its enclosing
non-pending card; with at most one result element per card (the renderer
removes existing ones first) that is the per-card traversal below. -/

/-- The aggregation-relevant rendering of one result element. -/
structure ResultView where
  outperforming : Bool
  lastFieldParsed : Option ℚ
deriving DecidableEq, Repr

/-- The aggregation-relevant state of one loan card. -/
structure CardView where
  pending : Bool
  hasError : Bool
  resultView : Option ResultView
  amountParsed : Option ℚ
deriving DecidableEq, Repr

/-- The object returned by `aggregatePortfolioData`. -/
structure PortfolioTotals where
  totalLoans : Nat
  analyzedCount : Nat
  totalTheoretical : ℚ
  outperformingCount : Nat
  totalLoanAmount : ℚ
deriving DecidableEq, Repr

/-- The running accumulator of the `resultEls.forEach` loop
(content.js 1575-1599). -/
structure AggAcc where
  totalTheoretical : ℚ
  outperformingCount : Nat
  totalLoanAmount : ℚ
deriving DecidableEq, Repr

/-- One iteration of the `resultEls.forEach` loop: count the
outperforming class, add the signed last field value (negated for
underperforming results), add the card's parsed loan amount. -/
def aggStep (acc : AggAcc) (card : CardView) : AggAcc :=
  match card.resultView with
  | none => acc
  | some r =>
    let acc1 :=
      if r.outperforming then { acc with outperformingCount := acc.outperformingCount + 1 }
      else acc
    let acc2 :=
      match r.lastFieldParsed with
      | some num =>
        { acc1 with totalTheoretical :=
            acc1.totalTheoretical + (if r.outperforming then num else -num) }
      | none => acc1
    match card.amountParsed with
    | some amt => { acc2 with totalLoanAmount := acc2.totalLoanAmount + amt }
    | none => acc2

/-- content.js 1546-1603. -/
def aggregatePortfolioData (cards : List CardView) : PortfolioTotals :=
  let validCards := cards.filter (fun c => c.pending = false)
  let resultCards := validCards.filter (fun c => c.resultView.isSome)
  let errorCards := validCards.filter (fun c => c.hasError)
  let acc := resultCards.foldl aggStep ⟨0, 0, 0⟩
  { totalLoans := validCards.length,
    analyzedCount := resultCards.length + errorCards.length,
    totalTheoretical := acc.totalTheoretical,
    outperformingCount := acc.outperformingCount,
    totalLoanAmount := acc.totalLoanAmount }

/-- An abstract published item state, rendered to a `CardView` exactly as
the pipeline publishes it: a completed analysis renders the performance
record of `calculateFirefishBTCPerformance` (content.js 1400-1470: the
`firefish-btc-outperforming` class from `isOutperforming`, the last
`_fieldValue` showing `theoreticalValue = |theoreticalResult|`) together
with the card's loan-amount text; a failure renders a
`.firefish-btc-error` element; a still-loading card renders neither; a
PENDING card is excluded. -/
inductive ItemState where
  | resultItem (ld : FirefishLoanData) (currentPrice historicalPrice : ℚ) (amount : ℚ)
  | failedItem
  | loadingItem
  | pendingCard
deriving DecidableEq, Repr

/-- Render one published item state to its card view.  The displayed last
field value re-parses to `theoreticalValue` exactly (the
`Intl.NumberFormat` round-trip is exact for the two-decimal values the
claims are stated over). -/
def renderCard : ItemState → CardView
  | .resultItem ld cp hp amount =>
    let perf := calculateFirefishBTCPerformance ld cp hp
    ⟨false, false, some ⟨perf.isOutperforming, some perf.theoreticalValue⟩, some amount⟩
  | .failedItem => ⟨false, true, none, none⟩
  | .loadingItem => ⟨false, false, none, none⟩
  | .pendingCard => ⟨true, false, none, none⟩

/-- The signed net result (`theoreticalResult`, the spec's `netResult`)
of a published item: what the claim says each item contributes to
`totalNet`. -/
def netOf : ItemState → ℚ
  | .resultItem ld cp hp _ => (calculateFirefishBTCPerformance ld cp hp).theoreticalResult
  | _ => 0

/-- Loan amount contributed by a published item to `totalPositionValue`. -/
def amountOf : ItemState → ℚ
  | .resultItem _ _ _ amount => amount
  | _ => 0

/-- Whether an item reached `Result`. -/
def isResultItem : ItemState → Bool
  | .resultItem _ _ _ _ => true
  | _ => false

/-- Whether an item reached `Failed`. -/
def isFailedItem : ItemState → Bool
  | .failedItem => true
  | _ => false

/-- Whether an item is outperforming (a `Result` with positive net). -/
def isOutperformingItem : ItemState → Bool
  | .resultItem ld cp hp _ => (calculateFirefishBTCPerformance ld cp hp).isOutperforming
  | _ => false

/-- Whether the card is counted by `totalLoans` (non-PENDING). -/
def isCounted : ItemState → Bool
  | .pendingCard => false
  | _ => true

/-! # Theorems -/

/-- C1: for every loan record with principal `P`, annual rate `R`
(percent), historical price `H > 0` and current price `C`, the
performance calculator returns `btcValueChange = P*(C/H - 1)`,
`interestCost = P*(R/100)` (source name `loanInterestCost`),
`netResult = btcValueChange - interestCost` (source name
`theoreticalResult`), and `outperforming = (btcValueChange >
interestCost)` (source name `isOutperforming`). -/
theorem calculateFirefishBTCPerformance_formulas (ld : FirefishLoanData)
    (currentPrice historicalPrice : ℚ) (hH : 0 < historicalPrice) :
    (calculateFirefishBTCPerformance ld currentPrice historicalPrice).btcValueChange
        = ld.loanAmount * (currentPrice / historicalPrice - 1)
    ∧ (calculateFirefishBTCPerformance ld currentPrice historicalPrice).loanInterestCost
        = ld.loanAmount * (ld.interestRate / 100)
    ∧ (calculateFirefishBTCPerformance ld currentPrice historicalPrice).theoreticalResult
        = (calculateFirefishBTCPerformance ld currentPrice historicalPrice).btcValueChange
          - (calculateFirefishBTCPerformance ld currentPrice historicalPrice).loanInterestCost
    ∧ ((calculateFirefishBTCPerformance ld currentPrice historicalPrice).isOutperforming = true
        ↔ (calculateFirefishBTCPerformance ld currentPrice historicalPrice).btcValueChange
          > (calculateFirefishBTCPerformance ld currentPrice historicalPrice).loanInterestCost) := by
  refine ⟨rfl, rfl, rfl, ?_⟩
  simp [calculateFirefishBTCPerformance]

/-- C1 witness: the spec's end-to-end scenario, `P = 10000`, `R = 12.5`,
`H = 60000`, `C = 90000` gives `btcValueChange = 5000`,
`interestCost = 1250`, `netResult = 3750`, `outperforming = true`. -/
theorem calculateFirefishBTCPerformance_example :
    (0 : ℚ) < 60000
    ∧ (calculateFirefishBTCPerformance ⟨"EUR", 10000, 12.5, 0.25, "24 Nov 2024"⟩
        90000 60000).btcValueChange = 5000
    ∧ (calculateFirefishBTCPerformance ⟨"EUR", 10000, 12.5, 0.25, "24 Nov 2024"⟩
        90000 60000).loanInterestCost = 1250
    ∧ (calculateFirefishBTCPerformance ⟨"EUR", 10000, 12.5, 0.25, "24 Nov 2024"⟩
        90000 60000).theoreticalResult = 3750
    ∧ (calculateFirefishBTCPerformance ⟨"EUR", 10000, 12.5, 0.25, "24 Nov 2024"⟩
        90000 60000).isOutperforming = true := by
  obtain ⟨h1, h2, h3, h4⟩ :=
    calculateFirefishBTCPerformance_formulas ⟨"EUR", 10000, 12.5, 0.25, "24 Nov 2024"⟩
      90000 60000 (by norm_num)
  refine ⟨by norm_num, ?_, ?_, ?_, ?_⟩
  · rw [h1]; norm_num
  · rw [h2]; norm_num
  · rw [h3, h1, h2]; norm_num
  · rw [h4, h1, h2]; norm_num

/-- C3: the spec says the throttler flags "too fast" when more than 5 of
the recorded timestamps (rolling window of the last 10) lie in the
trailing 30 seconds; the source's own comment says the same, but the
implementation takes `slice(-5)` — at most five timestamps — before
counting, so the `> 5` comparison can never succeed.  At the failing
input (six requests recorded at time 0, all six inside the trailing 30 s
of `now = 0`) the flag stays `false`; indeed it is `false` for every
history and clock. -/
theorem isRequestingTooFast_burst_missed :
    ((List.range 6).foldl (fun h _ => recordRequest h 0) [] = List.replicate 6 (0 : Int)
      ∧ (List.replicate 6 (0 : Int)).length = 6
      ∧ ((List.replicate 6 (0 : Int)).filter (fun ts => (0 : Int) - 30000 < ts)).length = 6
      ∧ isRequestingTooFast (List.replicate 6 (0 : Int)) 0 = false)
    ∧ ∀ (requestHistory : List Int) (now : Int),
        isRequestingTooFast requestHistory now = false := by
  refine ⟨by decide, ?_⟩
  intro requestHistory now
  have hdrop : (requestHistory.drop (requestHistory.length - 5)).length ≤ 5 := by
    rw [List.length_drop]
    omega
  have hfilt :=
    List.length_filter_le (fun ts => decide (now - 30000 < ts))
      (requestHistory.drop (requestHistory.length - 5))
  by_cases hlen : requestHistory.length < 2
  · simp [isRequestingTooFast, hlen]
  · simp only [isRequestingTooFast, hlen, if_false, decide_eq_false_iff_not]
    omega

/-- C5: a valid position whose historical price resolves to `0` is failed
by the pipeline while the coordinator is not limited: the JS guard
`!historicalPrice` is true for `0`, so the error branch publishes a
`Failed` display and the calculator is never invoked — no result (and in
particular no `Infinity`/`NaN` value) is published for the item. -/
theorem processFirefishLoanCard_zero_historical_fails (env : PipelineEnv)
    (ld : FirefishLoanData) (prices : List (String × ℚ))
    (hproc : env.alreadyProcessed = false)
    (hld : env.loanData = some ld)
    (hcur : env.currentPrices = some prices)
    (hhist : env.historicalPrice = some 0)
    (hlim : env.isRateLimited = false) :
    processFirefishLoanCard env
      = .errorShown ("Failed to fetch BTC price for " ++ ld.provisionDate)
    ∧ (∀ perf, processFirefishLoanCard env ≠ .resultShown perf)
    ∧ processFirefishLoanCard env ≠ .resultShownNaN := by
  have h : processFirefishLoanCard env
      = .errorShown ("Failed to fetch BTC price for " ++ ld.provisionDate) := by
    unfold processFirefishLoanCard
    rw [hproc, hld, hcur, hhist, hlim]
    simp
  refine ⟨h, ?_, ?_⟩
  · intro perf
    rw [h]
    simp
  · rw [h]
    simp

/-- C5 witness: a concrete valid EUR position whose historical price came
back `0`, with the coordinator not limited, is failed. -/
theorem processFirefishLoanCard_zero_historical_example :
    processFirefishLoanCard
      { alreadyProcessed := false,
        loanData := some ⟨"EUR", 10000, 12.5, 0.25, "24 Nov 2024"⟩,
        currentPrices := some [("eur", 90000)],
        historicalPrice := some 0,
        isRateLimited := false }
      = .errorShown "Failed to fetch BTC price for 24 Nov 2024" := by
  have h :=
    (processFirefishLoanCard_zero_historical_fails
      { alreadyProcessed := false,
        loanData := some ⟨"EUR", 10000, 12.5, 0.25, "24 Nov 2024"⟩,
        currentPrices := some [("eur", 90000)],
        historicalPrice := some 0,
        isRateLimited := false }
      ⟨"EUR", 10000, 12.5, 0.25, "24 Nov 2024"⟩ [("eur", 90000)]
      rfl rfl rfl rfl rfl).1
  rw [h]
  rfl

/-- C2: the claim says a second throttle trigger inside the cooldown
window cancels and restarts the existing timers, so the single resolution
fires at `secondTrigger + 60 s`.  In the source,
`startRateLimitCountdown` clears only `countdownInterval` and overwrites
`retryTimeout` without `clearTimeout`, so after triggers at 0 ms and
30000 ms the first 60 s timeout (timer id 1) is still armed; running the
event loop, the resolution callback fires exactly once but at 60000 ms
(= firstTrigger + cooldown), not at 90000 ms (= secondTrigger +
cooldown). -/
theorem startRateLimitCountdown_double_trigger :
    (⟨1, 60000, false⟩ : ArmedTimer)
        ∈ (startRateLimitCountdown 30000 (startRateLimitCountdown 0 initialRLState)).timers
    ∧ (startRateLimitCountdown 30000 (startRateLimitCountdown 0 initialRLState)).retryTimeout
        = some 3
    ∧ (runTimers 100
        (startRateLimitCountdown 30000 (startRateLimitCountdown 0 initialRLState))).callbackFiredAt
        = [60000]
    ∧ (60000 : Nat) ≠ 30000 + 60000 := by
  decide

/-- C8 counterexample: after the 60 s resolution fires,
`resolveRateLimit` has cleared the limited flag but left `pendingCards`
untouched (the drain only happens in the separately-scheduled
`processPendingCards`), so the set is non-empty while `isRateLimited` is
`false` — the claimed invariant fails on this reachable state. -/
theorem pendingCards_nonempty_while_not_limited :
    (resolveRateLimit 60000
        (addPendingCard 7 (startRateLimitCountdown 0 initialRLState))).isRateLimited = false
    ∧ (resolveRateLimit 60000
        (addPendingCard 7 (startRateLimitCountdown 0 initialRLState))).pendingCards = [7] := by
  decide

/-- Inserting into a JS `Set` keeps membership. -/
theorem mem_setInsert_of_mem {q : List Nat} {x c : Nat} (h : x ∈ q) : x ∈ setInsert q c := by
  unfold setInsert
  split
  · exact h
  · exact List.mem_append_left _ h

/-- Inserting into a JS `Set` adds the element. -/
theorem mem_setInsert_self (q : List Nat) (c : Nat) : c ∈ setInsert q c := by
  unfold setInsert
  split
  · assumption
  · exact List.mem_append_right _ (List.mem_singleton.mpr rfl)

/-- Inserting into a JS `Set` preserves `Nodup`. -/
theorem nodup_setInsert {q : List Nat} (c : Nat) (h : q.Nodup) : (setInsert q c).Nodup := by
  unfold setInsert
  split
  · exact h
  · next hc => simp [List.nodup_append, h, hc]

/-- Folding `Set.add` over a list keeps prior members. -/
theorem mem_foldl_setInsert_of_mem (pending : List Nat) :
    ∀ (q : List Nat) (x : Nat), x ∈ q → x ∈ pending.foldl setInsert q := by
  induction pending with
  | nil => intro q x h; simpa using h
  | cons c rest ih =>
    intro q x h
    exact ih (setInsert q c) x (mem_setInsert_of_mem h)

/-- Folding `Set.add` over a list inserts every element of the list. -/
theorem mem_foldl_setInsert_self (pending : List Nat) :
    ∀ (q : List Nat) (x : Nat), x ∈ pending → x ∈ pending.foldl setInsert q := by
  induction pending with
  | nil => intro q x h; simp at h
  | cons c rest ih =>
    intro q x h
    rcases List.mem_cons.mp h with h | h
    · subst h
      exact mem_foldl_setInsert_of_mem rest _ x (mem_setInsert_self q x)
    · exact ih _ x h

/-- Folding `Set.add` preserves `Nodup`. -/
theorem nodup_foldl_setInsert (pending : List Nat) :
    ∀ q : List Nat, q.Nodup → (pending.foldl setInsert q).Nodup := by
  induction pending with
  | nil => intro q h; simpa using h
  | cons c rest ih =>
    intro q h
    exact ih _ (nodup_setInsert c h)

/-- C8 (amended): `pendingCards` can be non-empty while the limited flag
is already `false` — `resolveRateLimit` clears the flag without touching
the set and the drain happens in the separately-scheduled
`processPendingCards`, which then empties the set and resubmits every
pending card exactly once (each card lands in the analyzer's processing
queue, a set, exactly one time when the queue has no duplicates). -/
theorem resolveRateLimit_and_processPendingCards_drain :
    (∀ (now : Nat) (st : RLState),
        (resolveRateLimit now st).pendingCards = st.pendingCards
        ∧ (resolveRateLimit now st).isRateLimited = false)
    ∧ ∀ st : RLState, st.processingQueue.Nodup →
        (processPendingCards st).pendingCards = []
        ∧ (processPendingCards st).processingQueue.Nodup
        ∧ ∀ c ∈ st.pendingCards, (processPendingCards st).processingQueue.count c = 1 := by
  constructor
  · intro now st
    exact ⟨rfl, rfl⟩
  · intro st hq
    refine ⟨rfl, nodup_foldl_setInsert _ _ hq, ?_⟩
    intro c hc
    have hmem : c ∈ st.pendingCards.foldl setInsert st.processingQueue :=
      mem_foldl_setInsert_self _ _ _ hc
    have hnd : (st.pendingCards.foldl setInsert st.processingQueue).Nodup :=
      nodup_foldl_setInsert _ _ hq
    exact List.count_eq_one_of_mem hnd hmem

/-- C8 witness: a concrete state with pending cards 7 and 9 and queue
`[4]`: resolution leaves both pending with the flag down, and the drain
resubmits each exactly once. -/
theorem resolveRateLimit_and_processPendingCards_drain_example :
    (resolveRateLimit 60000
        { initialRLState with pendingCards := [7, 9], processingQueue := [4] }).pendingCards
      = [7, 9]
    ∧ (processPendingCards
        { initialRLState with pendingCards := [7, 9], processingQueue := [4] }).pendingCards
      = []
    ∧ (processPendingCards
        { initialRLState with pendingCards := [7, 9], processingQueue := [4] }).processingQueue.count 7
      = 1 := by
  have h1 := (resolveRateLimit_and_processPendingCards_drain.1 60000
    { initialRLState with pendingCards := [7, 9], processingQueue := [4] }).1
  have h2 := resolveRateLimit_and_processPendingCards_drain.2
    { initialRLState with pendingCards := [7, 9], processingQueue := [4] } (by decide)
  exact ⟨h1, h2.1, h2.2.2 7 (by decide)⟩

/-- A cache hit returns the stored price with no network request and no
cache change (content.js 771-773). -/
theorem getHistoricalPriceStep_hit {cache : HistCache} {key : String}
    (currency : String) (fetch : HistFetchResult) (now : Int)
    (hhit : histHas cache key = true) :
    getHistoricalPriceStep cache key currency fetch now
      = ⟨cache, histGetPrice cache key, false⟩ := by
  unfold getHistoricalPriceStep
  rw [hhit]
  simp

/-- A key that is not in the cache reads as `none`. -/
theorem histGetPrice_eq_none_of_not_has {cache : HistCache} {key : String}
    (h : histHas cache key = false) : histGetPrice cache key = none := by
  induction cache with
  | nil => rfl
  | cons e rest ih =>
    unfold histHas at h ih
    simp only [List.any_cons, Bool.or_eq_false_iff] at h
    unfold histGetPrice
    rw [List.find?_cons_of_neg]
    · exact ih h.2
    · simp [h.1]

/-- The replace-in-place pass of `Map.set` does not change which keys
read as present. -/
theorem histAny_map_set (cache : HistCache) (key k : String) (entry : HistEntry) :
    ((cache.map (fun e => if e.1 = k then (k, entry) else e)).any fun e => e.1 = key)
      = (cache.any fun e => e.1 = key) := by
  induction cache with
  | nil => rfl
  | cons e rest ih =>
    simp only [List.map_cons, List.any_cons, ih]
    by_cases he : e.1 = k
    · simp [he]
    · simp [he]

/-- Reading the written key after the replace-in-place pass of `Map.set`
gives the new record. -/
theorem histGetPrice_map_set_self (cache : HistCache) (key : String) (entry : HistEntry)
    (h : (cache.any fun e => e.1 = key) = true) :
    histGetPrice (cache.map (fun e => if e.1 = key then (key, entry) else e)) key
      = entry.price := by
  induction cache with
  | nil => simp at h
  | cons e rest ih =>
    by_cases he : e.1 = key
    · unfold histGetPrice
      rw [List.map_cons, if_pos he, List.find?_cons_of_pos]
      simp
    · simp only [List.any_cons, Bool.or_eq_true] at h
      rcases h with h | h
      · exact absurd (by simpa using h) he
      · unfold histGetPrice at ih ⊢
        rw [List.map_cons, if_neg he, List.find?_cons_of_neg]
        · exact ih h
        · simp [he]

/-- Reading the written key after the append pass of `Map.set` gives the
new record. -/
theorem histGetPrice_append_self (cache : HistCache) (key : String) (entry : HistEntry)
    (h : (cache.any fun e => e.1 = key) = false) :
    histGetPrice (cache ++ [(key, entry)]) key = entry.price := by
  induction cache with
  | nil =>
    unfold histGetPrice
    simp
  | cons e rest ih =>
    simp only [List.any_cons, Bool.or_eq_false_iff] at h
    unfold histGetPrice at ih ⊢
    rw [List.cons_append, List.find?_cons_of_neg]
    · exact ih h.2
    · simp [of_decide_eq_false h.1]

/-- `Map.set` makes `has` true at the written key. -/
theorem histHas_histSet_self (cache : HistCache) (key : String) (price : Option ℚ) (now : Int) :
    histHas (histSet cache key price now) key = true := by
  unfold histSet histHas
  by_cases hany : (cache.any fun e => e.1 = key) = true
  · rw [if_pos hany, histAny_map_set]
    exact hany
  · rw [if_neg hany]
    simp

/-- `Map.set` makes `get` return the written record at the written key. -/
theorem histGetPrice_histSet_self (cache : HistCache) (key : String) (price : Option ℚ)
    (now : Int) : histGetPrice (histSet cache key price now) key = price := by
  unfold histSet
  by_cases hany : (cache.any fun e => e.1 = key) = true
  · rw [if_pos hany]
    exact histGetPrice_map_set_self cache key _ hany
  · rw [if_neg hany]
    rw [Bool.not_eq_true] at hany
    exact histGetPrice_append_self cache key _ hany

/-- Reading another key is unchanged by the replace-in-place pass of
`Map.set` (the rewritten entries have key `k ≠ key`). -/
theorem histGetPrice_map_set_other (cache : HistCache) {key k : String} (entry : HistEntry)
    (hne : k ≠ key) :
    histGetPrice (cache.map (fun e => if e.1 = k then (k, entry) else e)) key
      = histGetPrice cache key := by
  induction cache with
  | nil => rfl
  | cons e rest ih =>
    by_cases he : e.1 = k
    · unfold histGetPrice at ih ⊢
      rw [List.map_cons, if_pos he]
      rw [List.find?_cons_of_neg _ (by simp [hne]), List.find?_cons_of_neg _ (by simp [he, hne])]
      exact ih
    · by_cases hk : e.1 = key
      · unfold histGetPrice
        rw [List.map_cons, if_neg he]
        rw [List.find?_cons_of_pos _ (by simp [hk]), List.find?_cons_of_pos _ (by simp [hk])]
      · unfold histGetPrice at ih ⊢
        rw [List.map_cons, if_neg he]
        rw [List.find?_cons_of_neg _ (by simp [hk]), List.find?_cons_of_neg _ (by simp [hk])]
        exact ih

/-- Reading another key is unchanged by appending an entry for `k`. -/
theorem histGetPrice_append_other (cache : HistCache) {key k : String} (entry : HistEntry)
    (hne : k ≠ key) :
    histGetPrice (cache ++ [(k, entry)]) key = histGetPrice cache key := by
  induction cache with
  | nil =>
    unfold histGetPrice
    rw [List.nil_append, List.find?_cons_of_neg _ (by simp [hne])]
  | cons e rest ih =>
    by_cases hk : e.1 = key
    · unfold histGetPrice
      rw [List.cons_append]
      rw [List.find?_cons_of_pos _ (by simp [hk]), List.find?_cons_of_pos _ (by simp [hk])]
    · unfold histGetPrice at ih ⊢
      rw [List.cons_append]
      rw [List.find?_cons_of_neg _ (by simp [hk]), List.find?_cons_of_neg _ (by simp [hk])]
      exact ih

/-- `Map.set` at another key changes neither `has` nor `get` at this key. -/
theorem histSet_preserves_other (cache : HistCache) {key k : String} (price : Option ℚ)
    (now : Int) (hne : k ≠ key) :
    histHas (histSet cache k price now) key = histHas cache key
    ∧ histGetPrice (histSet cache k price now) key = histGetPrice cache key := by
  unfold histSet
  by_cases hany : (cache.any fun e => e.1 = k) = true
  · rw [if_pos hany]
    exact ⟨histAny_map_set cache key k _, histGetPrice_map_set_other cache _ hne⟩
  · rw [if_neg hany]
    constructor
    · unfold histHas
      simp [hne]
    · exact histGetPrice_append_other cache _ hne

/-- One `getHistoricalPrice` call on a different key changes neither
`has` nor `get` at this key. -/
theorem getHistoricalPriceStep_preserves_other (cache : HistCache) {key k : String}
    (currency : String) (fetch : HistFetchResult) (now : Int) (hne : k ≠ key) :
    histHas (getHistoricalPriceStep cache k currency fetch now).cache key = histHas cache key
    ∧ histGetPrice (getHistoricalPriceStep cache k currency fetch now).cache key
      = histGetPrice cache key := by
  unfold getHistoricalPriceStep
  split
  · exact ⟨rfl, rfl⟩
  · match fetch with
    | .success prices => exact histSet_preserves_other cache _ _ hne
    | .http429 => exact ⟨rfl, rfl⟩
    | .httpError _ => exact ⟨rfl, rfl⟩
    | .jsError _ => exact ⟨rfl, rfl⟩

/-- A sequence of `getHistoricalPrice` calls, none of them on this key,
changes neither `has` nor `get` at this key. -/
theorem applyHistSteps_preserves_other (ops : List (String × String × HistFetchResult × Int)) :
    ∀ (cache : HistCache) (key : String), (∀ op ∈ ops, op.1 ≠ key) →
    histHas (applyHistSteps ops cache) key = histHas cache key
    ∧ histGetPrice (applyHistSteps ops cache) key = histGetPrice cache key := by
  induction ops with
  | nil => intro cache key _; exact ⟨rfl, rfl⟩
  | cons op rest ih =>
    intro cache key hops
    have hop : op.1 ≠ key := hops op (List.mem_cons_self _ _)
    have hrest : ∀ o ∈ rest, o.1 ≠ key := fun o ho => hops o (List.mem_cons_of_mem _ ho)
    have hstep := getHistoricalPriceStep_preserves_other cache op.2.1 op.2.2.1 op.2.2.2 hop
    have := ih (getHistoricalPriceStep cache op.1 op.2.1 op.2.2.1 op.2.2.2).cache key hrest
    exact ⟨this.1.trans hstep.1, this.2.trans hstep.2⟩

/-- After any one `getHistoricalPrice` call, reading the key from the
updated cache gives exactly what the call returned (hit: the stored
value; miss + success: the freshly stored lookup; miss + failure: `none`
and nothing stored). -/
theorem histGetPrice_after_step (cache : HistCache) (key currency : String)
    (fetch : HistFetchResult) (now : Int) :
    histGetPrice (getHistoricalPriceStep cache key currency fetch now).cache key
      = (getHistoricalPriceStep cache key currency fetch now).result := by
  unfold getHistoricalPriceStep
  split
  · rfl
  · next hmiss =>
    match fetch with
    | .success prices => exact histGetPrice_histSet_self cache key _ now
    | .http429 => exact histGetPrice_eq_none_of_not_has (by simpa using hmiss)
    | .httpError _ => exact histGetPrice_eq_none_of_not_has (by simpa using hmiss)
    | .jsError _ => exact histGetPrice_eq_none_of_not_has (by simpa using hmiss)

/-- After a successful `getHistoricalPrice` call the key is present. -/
theorem histHas_after_success_step (cache : HistCache) (key currency : String)
    (prices : List (String × ℚ)) (now : Int) :
    histHas (getHistoricalPriceStep cache key currency (.success prices) now).cache key
      = true := by
  unfold getHistoricalPriceStep
  split
  · assumption
  · exact histHas_histSet_self cache key _ now

/-- C9: after a `getHistoricalPrice` call for a key whose response was
successful (so a value — the looked-up price — is stored, or the
already-present value is kept), any later call for the same key, after
arbitrarily many intervening calls on other keys and at arbitrary later
timestamps, returns exactly the same value from the cache, issues no
network request, and leaves the cache unchanged: historical entries are
never expired or evicted. -/
theorem historicalCache_never_expires (cache : HistCache) (key currency : String)
    (prices : List (String × ℚ)) (now : Int)
    (ops : List (String × String × HistFetchResult × Int))
    (hops : ∀ op ∈ ops, op.1 ≠ key)
    (currency' : String) (fetch' : HistFetchResult) (now' : Int) :
    (getHistoricalPriceStep
        (applyHistSteps ops (getHistoricalPriceStep cache key currency (.success prices) now).cache)
        key currency' fetch' now').result
      = (getHistoricalPriceStep cache key currency (.success prices) now).result
    ∧ (getHistoricalPriceStep
        (applyHistSteps ops (getHistoricalPriceStep cache key currency (.success prices) now).cache)
        key currency' fetch' now').networkRequest = false
    ∧ (getHistoricalPriceStep
        (applyHistSteps ops (getHistoricalPriceStep cache key currency (.success prices) now).cache)
        key currency' fetch' now').cache
      = applyHistSteps ops (getHistoricalPriceStep cache key currency (.success prices) now).cache := by
  have hstep := getHistoricalPriceStep cache key currency (.success prices) now
  have hpres := applyHistSteps_preserves_other ops
    (getHistoricalPriceStep cache key currency (.success prices) now).cache key hops
  have hhas : histHas
      (applyHistSteps ops (getHistoricalPriceStep cache key currency (.success prices) now).cache)
      key = true := by
    rw [hpres.1]
    exact histHas_after_success_step cache key currency prices now
  have hget : histGetPrice
      (applyHistSteps ops (getHistoricalPriceStep cache key currency (.success prices) now).cache)
      key = (getHistoricalPriceStep cache key currency (.success prices) now).result := by
    rw [hpres.2]
    exact histGetPrice_after_step cache key currency (.success prices) now
  rw [getHistoricalPriceStep_hit currency' fetch' now' hhas]
  exact ⟨hget, rfl, rfl⟩

/-- C9 witness: store 60000 for `24-11-2024_eur`, run an unrelated call
on `25-11-2024_eur`, then look the key up again much later: the same
value comes back from the cache with no network request. -/
theorem historicalCache_never_expires_example :
    (getHistoricalPriceStep
        (applyHistSteps [("25-11-2024_eur", "eur", .http429, 777)]
          (getHistoricalPriceStep [] "24-11-2024_eur" "eur"
            (.success [("eur", 60000)]) 0).cache)
        "24-11-2024_eur" "eur" (.success [("eur", 99999)]) 1000000000).result
      = some 60000
    ∧ (getHistoricalPriceStep
        (applyHistSteps [("25-11-2024_eur", "eur", .http429, 777)]
          (getHistoricalPriceStep [] "24-11-2024_eur" "eur"
            (.success [("eur", 60000)]) 0).cache)
        "24-11-2024_eur" "eur" (.success [("eur", 99999)]) 1000000000).networkRequest
      = false := by
  have h := historicalCache_never_expires [] "24-11-2024_eur" "eur" [("eur", 60000)] 0
    [("25-11-2024_eur", "eur", .http429, 777)]
    (by intro op hop; simp at hop; rw [hop]; decide)
    "eur" (.success [("eur", 99999)]) 1000000000
  refine ⟨h.1.trans ?_, h.2.1⟩
  simp [getHistoricalPriceStep, histHas, histSet, jsToLower]

/-- C10: when the response for a missing key is successful but its price
map lacks the requested currency, the absent value (`undefined`, i.e.
`none`) is stored permanently under that key, so the first call returns
the failure value, the key reads as present, and every later call for
that key (after arbitrarily many calls on other keys) returns the
failure value straight from the cache without issuing another network
request. -/
theorem historicalCache_caches_missing_currency (cache : HistCache) (key currency : String)
    (prices : List (String × ℚ)) (now : Int)
    (hmiss : histHas cache key = false)
    (habsent : prices.find? (fun e => e.1 = jsToLower currency) = none)
    (ops : List (String × String × HistFetchResult × Int))
    (hops : ∀ op ∈ ops, op.1 ≠ key)
    (currency' : String) (fetch' : HistFetchResult) (now' : Int) :
    (getHistoricalPriceStep cache key currency (.success prices) now).result = none
    ∧ histHas (getHistoricalPriceStep cache key currency (.success prices) now).cache key = true
    ∧ (getHistoricalPriceStep
        (applyHistSteps ops (getHistoricalPriceStep cache key currency (.success prices) now).cache)
        key currency' fetch' now').result = none
    ∧ (getHistoricalPriceStep
        (applyHistSteps ops (getHistoricalPriceStep cache key currency (.success prices) now).cache)
        key currency' fetch' now').networkRequest = false := by
  have hres : (getHistoricalPriceStep cache key currency (.success prices) now).result = none := by
    unfold getHistoricalPriceStep
    rw [hmiss]
    simp [habsent]
  have h := historicalCache_never_expires cache key currency prices now ops hops
    currency' fetch' now'
  exact ⟨hres, histHas_after_success_step cache key currency prices now,
    h.1.trans hres, h.2.1⟩

/-- C10 witness: a response that only carries EUR, requested for CHF:
`undefined` is cached for `24-11-2024_chf`, and the follow-up call
returns the failure value from the cache with no network request. -/
theorem historicalCache_caches_missing_currency_example :
    (getHistoricalPriceStep [] "24-11-2024_chf" "chf" (.success [("eur", 60000)]) 0).result = none
    ∧ (getHistoricalPriceStep
        (applyHistSteps []
          (getHistoricalPriceStep [] "24-11-2024_chf" "chf" (.success [("eur", 60000)]) 0).cache)
        "24-11-2024_chf" "chf" (.success [("eur", 60000)]) 555).result = none
    ∧ (getHistoricalPriceStep
        (applyHistSteps []
          (getHistoricalPriceStep [] "24-11-2024_chf" "chf" (.success [("eur", 60000)]) 0).cache)
        "24-11-2024_chf" "chf" (.success [("eur", 60000)]) 555).networkRequest = false := by
  have h := historicalCache_caches_missing_currency [] "24-11-2024_chf" "chf"
    [("eur", 60000)] 0 rfl
    (by decide)
    [] (by intro op hop; simp at hop)
    "chf" (.success [("eur", 60000)]) 555
  exact ⟨h.1, h.2.2.1, h.2.2.2⟩

/-- The signed value the aggregation loop adds for a rendered result —
`+displayed` for outperforming, `-displayed` for underperforming — is
exactly the calculator's signed `theoreticalResult`, because the display
shows `theoreticalValue = |theoreticalResult|` and the outperforming
class holds exactly when `theoreticalResult > 0`. -/
theorem signed_display_eq_theoreticalResult (ld : FirefishLoanData) (cp hp : ℚ) :
    (if (calculateFirefishBTCPerformance ld cp hp).isOutperforming
      then (calculateFirefishBTCPerformance ld cp hp).theoreticalValue
      else -(calculateFirefishBTCPerformance ld cp hp).theoreticalValue)
    = (calculateFirefishBTCPerformance ld cp hp).theoreticalResult := by
  unfold calculateFirefishBTCPerformance
  simp only
  set bvc := ld.loanAmount * (cp / hp - 1) with hbvc
  set cost := ld.loanAmount * (ld.interestRate / 100) with hcost
  by_cases h : bvc > cost
  · rw [if_pos (by simpa using h)]
    exact abs_of_pos (by linarith)
  · rw [if_neg (by simpa using h)]
    rw [abs_of_nonpos (by linarith)]
    ring

/-- Unfolding of one aggregation-loop iteration on a rendered result
card. -/
theorem aggStep_renderCard_result (acc : AggAcc) (ld : FirefishLoanData) (cp hp amt : ℚ) :
    aggStep acc (renderCard (.resultItem ld cp hp amt))
      = { totalTheoretical :=
            acc.totalTheoretical + (calculateFirefishBTCPerformance ld cp hp).theoreticalResult,
          outperformingCount :=
            acc.outperformingCount
              + (if (calculateFirefishBTCPerformance ld cp hp).isOutperforming then 1 else 0),
          totalLoanAmount := acc.totalLoanAmount + amt } := by
  rw [← signed_display_eq_theoreticalResult ld cp hp]
  unfold aggStep renderCard
  by_cases h : (calculateFirefishBTCPerformance ld cp hp).isOutperforming
  · simp [h]
  · simp [h]

/-- Evaluating the aggregation fold over rendered item states with an
arbitrary starting accumulator. -/
theorem agg_fold_renderCard (items : List ItemState) :
    ∀ acc : AggAcc,
    ((((items.map renderCard).filter fun c => c.pending = false).filter
        fun c => c.resultView.isSome).foldl aggStep acc)
      = { totalTheoretical := acc.totalTheoretical + (items.map netOf).sum,
          outperformingCount := acc.outperformingCount + items.countP isOutperformingItem,
          totalLoanAmount := acc.totalLoanAmount + (items.map amountOf).sum } := by
  induction items with
  | nil => intro acc; simp
  | cons i rest ih =>
    intro acc
    match i with
    | .resultItem ld cp hp amt =>
      simp only [List.map_cons, List.countP_cons, List.sum_cons]
      rw [List.filter_cons_of_pos (by simp [renderCard]),
        List.filter_cons_of_pos (by simp [renderCard]), List.foldl_cons,
        aggStep_renderCard_result, ih]
      simp only [netOf, amountOf, isOutperformingItem]
      rw [AggAcc.mk.injEq]
      refine ⟨by ring, by omega, by ring⟩
    | .failedItem =>
      simp only [List.map_cons, List.countP_cons, List.sum_cons]
      rw [List.filter_cons_of_pos (by simp [renderCard]),
        List.filter_cons_of_neg (by simp [renderCard]), ih]
      simp [netOf, amountOf, isOutperformingItem]
    | .loadingItem =>
      simp only [List.map_cons, List.countP_cons, List.sum_cons]
      rw [List.filter_cons_of_pos (by simp [renderCard]),
        List.filter_cons_of_neg (by simp [renderCard]), ih]
      simp [netOf, amountOf, isOutperformingItem]
    | .pendingCard =>
      simp only [List.map_cons, List.countP_cons, List.sum_cons]
      rw [List.filter_cons_of_neg (by simp [renderCard]), ih]
      simp [netOf, amountOf, isOutperformingItem]

/-- C4: aggregation over published item states.  `totalNet`
(`totalTheoretical`) is the SIGNED sum of each Result's net result —
underperforming results contribute their (negative) net value, not its
absolute value; `outperformingCount` counts outperforming results;
`analyzedCount` counts results plus failures; `totalPositionValue`
(`totalLoanAmount`) sums the loan amounts of result cards;
`totalPositions` (`totalLoans`) counts non-excluded (non-PENDING) cards.
In particular, one outperforming Result with net 3750 and amount 10000,
one Failed item and one still-loading card give
`⟨totalLoans 3, analyzed 2, totalNet 3750, outperforming 1, value 10000⟩`. -/
theorem aggregatePortfolioData_signed_sum :
    (∀ items : List ItemState,
      aggregatePortfolioData (items.map renderCard)
        = { totalLoans := items.countP isCounted,
            analyzedCount := items.countP isResultItem + items.countP isFailedItem,
            totalTheoretical := (items.map netOf).sum,
            outperformingCount := items.countP isOutperformingItem,
            totalLoanAmount := (items.map amountOf).sum })
    ∧ aggregatePortfolioData
        ([ItemState.resultItem ⟨"EUR", 10000, 12.5, 0.25, "24 Nov 2024"⟩ 90000 60000 10000,
          ItemState.failedItem, ItemState.loadingItem].map renderCard)
      = ⟨3, 2, 3750, 1, 10000⟩ := by
  have hmain : ∀ items : List ItemState,
      aggregatePortfolioData (items.map renderCard)
        = { totalLoans := items.countP isCounted,
            analyzedCount := items.countP isResultItem + items.countP isFailedItem,
            totalTheoretical := (items.map netOf).sum,
            outperformingCount := items.countP isOutperformingItem,
            totalLoanAmount := (items.map amountOf).sum } := by
    intro items
    simp only [aggregatePortfolioData]
    rw [agg_fold_renderCard items ⟨0, 0, 0⟩]
    have hq : ((fun c : CardView => decide (c.pending = false)) ∘ renderCard) = isCounted := by
      funext i
      cases i <;> rfl
    have hr : ((fun c : CardView => c.resultView.isSome && decide (c.pending = false))
        ∘ renderCard) = isResultItem := by
      funext i
      cases i <;> rfl
    have he : ((fun c : CardView => c.hasError && decide (c.pending = false))
        ∘ renderCard) = isFailedItem := by
      funext i
      cases i <;> rfl
    rw [PortfolioTotals.mk.injEq]
    refine ⟨?_, ?_, by simp, ?_, by simp⟩
    · rw [← List.countP_eq_length_filter, List.countP_map, hq]
    · rw [List.filter_filter, List.filter_filter, ← List.countP_eq_length_filter,
        ← List.countP_eq_length_filter, List.countP_map, List.countP_map, hr, he]
    · simp
  refine ⟨hmain, ?_⟩
  rw [hmain]
  simp only [List.countP_cons, List.countP_nil, List.map_cons, List.map_nil, List.sum_cons,
    List.sum_nil, netOf, amountOf, isCounted, isResultItem, isFailedItem, isOutperformingItem]
  rw [PortfolioTotals.mk.injEq]
  refine ⟨by decide, by decide, ?_, ?_, by norm_num⟩
  · norm_num [calculateFirefishBTCPerformance]
  · norm_num [calculateFirefishBTCPerformance]

/-! ### List-level lemmas about the parser's building blocks -/

/-- Digit characters survive the `[^0-9.,-]` filter. -/
theorem keepChar_of_digit {c : Char} (h : c.isDigit = true) : keepChar c = true := by
  simp [keepChar, h]

/-- The cleanup filter is the identity on strings of kept characters. -/
theorem cleanup_eq_self {l : List Char} (h : ∀ c ∈ l, keepChar c = true) : cleanup l = l :=
  List.filter_eq_self.mpr h

/-- A character with `isDigit = false` is not in an all-digit list. -/
theorem not_mem_of_all_digit {c : Char} (hc : c.isDigit = false) {l : List Char}
    (h : ∀ x ∈ l, x.isDigit = true) : c ∉ l := by
  intro hm
  rw [h c hm] at hc
  cases hc

/-- A digit is not a minus sign (and so on for the other specials). -/
theorem digit_ne {c : Char} (h : c.isDigit = true) : c ≠ '-' ∧ c ≠ '+' ∧ c ≠ ',' ∧ c ≠ '.' := by
  refine ⟨?_, ?_, ?_, ?_⟩ <;> intro heq <;> rw [heq] at h <;> exact absurd h (by decide)

/-- `lastIndexOf` of an absent character is `-1`. -/
theorem lastIndexOf_of_not_mem {c : Char} : ∀ {l : List Char}, c ∉ l → lastIndexOf c l = -1 := by
  intro l
  induction l with
  | nil => intro _; rfl
  | cons a t ih =>
    intro h
    have hat : c ∉ t := fun hm => h (List.mem_cons_of_mem _ hm)
    have hac : a ≠ c := fun heq => h (heq ▸ List.mem_cons_self _ _)
    unfold lastIndexOf
    rw [ih hat]
    simp [hac]

/-- `lastIndexOf` of a present character is non-negative. -/
theorem lastIndexOf_nonneg_of_mem {c : Char} : ∀ {l : List Char}, c ∈ l →
    0 ≤ lastIndexOf c l := by
  intro l
  induction l with
  | nil => intro h; cases h
  | cons a t ih =>
    intro h
    unfold lastIndexOf
    by_cases h1 : lastIndexOf c t ≥ 0
    · rw [if_pos h1]
      omega
    · rw [if_neg h1]
      rcases List.mem_cons.mp h with h | h
      · rw [if_pos h.symm]
      · exact absurd (ih h) h1

/-- `lastIndexOf` is always below the length. -/
theorem lastIndexOf_lt_length (c : Char) : ∀ l : List Char, lastIndexOf c l < l.length := by
  intro l
  induction l with
  | nil => norm_num [lastIndexOf]
  | cons a t ih =>
    simp only [lastIndexOf, List.length_cons]
    by_cases h1 : lastIndexOf c t ≥ 0
    · rw [if_pos h1]
      push_cast
      omega
    · rw [if_neg h1]
      by_cases h2 : a = c
      · rw [if_pos h2]
        push_cast
        omega
      · rw [if_neg h2]
        push_cast
        omega

/-- `lastIndexOf` ignores a suffix that does not contain the character. -/
theorem lastIndexOf_append_of_not_mem {c : Char} {B : List Char} (h : c ∉ B) :
    ∀ A : List Char, lastIndexOf c (A ++ B) = lastIndexOf c A := by
  intro A
  induction A with
  | nil => simpa using lastIndexOf_of_not_mem h
  | cons a A ih =>
    rw [List.cons_append]
    simp only [lastIndexOf]
    rw [ih]

/-- `lastIndexOf` of the separator in `A ++ sep :: B` with `sep ∉ B` is
the length of `A`. -/
theorem lastIndexOf_append_cons_self {c : Char} {B : List Char} (h : c ∉ B) :
    ∀ A : List Char, lastIndexOf c (A ++ c :: B) = A.length := by
  intro A
  induction A with
  | nil =>
    unfold lastIndexOf
    rw [List.nil_append]
    show (if lastIndexOf c B ≥ 0 then lastIndexOf c B + 1 else if c = c then 0 else -1) = 0
    rw [lastIndexOf_of_not_mem h]
    simp
  | cons a A ih =>
    rw [List.cons_append]
    unfold lastIndexOf
    rw [ih]
    have : (A.length : Int) ≥ 0 := by omega
    rw [if_pos this]
    simp

/-- `takeWhile` keeps a list all of whose elements satisfy the predicate. -/
theorem takeWhile_eq_self_of_all {p : Char → Bool} : ∀ {l : List Char},
    (∀ c ∈ l, p c = true) → l.takeWhile p = l := by
  intro l
  induction l with
  | nil => intro _; rfl
  | cons a t ih =>
    intro h
    rw [List.takeWhile_cons, h a (List.mem_cons_self _ _), if_pos rfl,
      ih fun c hc => h c (List.mem_cons_of_mem _ hc)]

/-- `dropWhile` drops a list all of whose elements satisfy the predicate. -/
theorem dropWhile_eq_nil_of_all {p : Char → Bool} : ∀ {l : List Char},
    (∀ c ∈ l, p c = true) → l.dropWhile p = [] := by
  intro l
  induction l with
  | nil => intro _; rfl
  | cons a t ih =>
    intro h
    rw [List.dropWhile_cons, h a (List.mem_cons_self _ _), if_pos rfl,
      ih fun c hc => h c (List.mem_cons_of_mem _ hc)]

/-- `takeWhile` on `A ++ x :: B` with all of `A` satisfying the predicate
and `x` failing it returns `A`. -/
theorem takeWhile_append_stop {p : Char → Bool} {x : Char} (hx : p x = false) :
    ∀ {A : List Char} (B : List Char), (∀ c ∈ A, p c = true) →
    (A ++ x :: B).takeWhile p = A := by
  intro A
  induction A with
  | nil =>
    intro B _
    rw [List.nil_append, List.takeWhile_cons, hx]
    rfl
  | cons a A ih =>
    intro B h
    rw [List.cons_append, List.takeWhile_cons, h a (List.mem_cons_self _ _), if_pos rfl,
      ih B fun c hc => h c (List.mem_cons_of_mem _ hc)]

/-- `dropWhile` on `A ++ x :: B` with all of `A` satisfying the predicate
and `x` failing it returns `x :: B`. -/
theorem dropWhile_append_stop {p : Char → Bool} {x : Char} (hx : p x = false) :
    ∀ {A : List Char} (B : List Char), (∀ c ∈ A, p c = true) →
    (A ++ x :: B).dropWhile p = x :: B := by
  intro A
  induction A with
  | nil =>
    intro B _
    rw [List.nil_append, List.dropWhile_cons, hx]
    rfl
  | cons a A ih =>
    intro B h
    rw [List.cons_append, List.dropWhile_cons, h a (List.mem_cons_self _ _), if_pos rfl,
      ih B fun c hc => h c (List.mem_cons_of_mem _ hc)]

/-- Unfolding of JS `split` on a cons cell, given the split of the tail. -/
theorem splitOnChar_cons_eq {sep : Char} {t : List Char} {h : List Char}
    {r : List (List Char)} (hsplit : splitOnChar sep t = h :: r) (a : Char) :
    splitOnChar sep (a :: t) = if a = sep then [] :: h :: r else (a :: h) :: r := by
  unfold splitOnChar
  rw [hsplit]

/-- JS `split` never returns an empty parts array. -/
theorem splitOnChar_ne_nil (sep : Char) : ∀ l : List Char, splitOnChar sep l ≠ [] := by
  intro l
  cases l with
  | nil => simp [splitOnChar]
  | cons a t =>
    unfold splitOnChar
    rcases h : splitOnChar sep t with _ | ⟨h', r⟩
    · simp
    · by_cases ha : a = sep
      · simp [ha]
      · simp [ha]

/-- JS `split` on a separator-free string is one part. -/
theorem splitOnChar_of_not_mem {sep : Char} : ∀ {l : List Char}, sep ∉ l →
    splitOnChar sep l = [l] := by
  intro l
  induction l with
  | nil => intro _; rfl
  | cons a t ih =>
    intro h
    have hat : sep ∉ t := fun hm => h (List.mem_cons_of_mem _ hm)
    have hac : a ≠ sep := fun heq => h (heq ▸ List.mem_cons_self _ _)
    unfold splitOnChar
    rw [ih hat]
    simp [hac]

/-- JS `split` of `A ++ sep :: B` with separator-free `A` and `B` is the
two parts. -/
theorem splitOnChar_append {sep : Char} {A B : List Char} (hA : sep ∉ A) (hB : sep ∉ B) :
    splitOnChar sep (A ++ sep :: B) = [A, B] := by
  induction A with
  | nil =>
    rw [List.nil_append]
    unfold splitOnChar
    rw [splitOnChar_of_not_mem hB]
    simp
  | cons a A ih =>
    have haA : sep ∉ A := fun hm => hA (List.mem_cons_of_mem _ hm)
    have hac : a ≠ sep := fun heq => hA (heq ▸ List.mem_cons_self _ _)
    rw [List.cons_append]
    unfold splitOnChar
    rw [ih haA]
    simp [hac]

/-- JS `split` produces at least two parts when the separator occurs. -/
theorem splitOnChar_length_ge_two {sep : Char} : ∀ {l : List Char}, sep ∈ l →
    2 ≤ (splitOnChar sep l).length := by
  intro l
  induction l with
  | nil => intro h; cases h
  | cons a t ih =>
    intro h
    unfold splitOnChar
    rcases hsplit : splitOnChar sep t with _ | ⟨h', r⟩
    · exact absurd hsplit (splitOnChar_ne_nil sep t)
    · by_cases ha : a = sep
      · simp [ha]
      · rcases List.mem_cons.mp h with heq | hmem
        · exact absurd heq.symm ha
        · have := ih hmem
          rw [hsplit] at this
          simp only [List.length_cons] at this
          simp [ha]
          omega

/-- The `parts.pop` / `parts.join('')` composite of the code, on
`A ++ sep :: B` with `sep ∉ B`: the joined prefix is `A` with every
separator removed, and the popped decimal part is `B`. -/
theorem splitOnChar_parts {sep : Char} {B : List Char} (hB : sep ∉ B) :
    ∀ A : List Char,
    (splitOnChar sep (A ++ sep :: B)).dropLast.flatten = A.filter (fun c => c ≠ sep)
    ∧ (splitOnChar sep (A ++ sep :: B)).getLastD [] = B := by
  intro A
  induction A with
  | nil =>
    rw [List.nil_append]
    have : splitOnChar sep (sep :: B) = [[], B] := splitOnChar_append (List.not_mem_nil sep) hB
    rw [this]
    simp
  | cons a A ih =>
    have hmem : sep ∈ A ++ sep :: B := List.mem_append_right _ (List.mem_cons_self _ _)
    have hlen := splitOnChar_length_ge_two hmem
    rcases hsplit : splitOnChar sep (A ++ sep :: B) with _ | ⟨h', r⟩
    · exact absurd hsplit (splitOnChar_ne_nil sep _)
    · rcases r with _ | ⟨r0, rs⟩
      · rw [hsplit] at hlen
        simp at hlen
      · rw [hsplit] at ih
        rw [List.cons_append, splitOnChar_cons_eq hsplit a]
        by_cases ha : a = sep
        · rw [if_pos ha]
          subst ha
          constructor
          · show ([] :: h' :: r0 :: rs).dropLast.flatten = (a :: A).filter (fun c => c ≠ a)
            have : ([] :: h' :: r0 :: rs).dropLast = [] :: (h' :: r0 :: rs).dropLast := rfl
            rw [this]
            simp only [List.flatten_cons, List.nil_append]
            rw [ih.1]
            simp
          · show ([] :: h' :: r0 :: rs).getLastD [] = B
            have : ([] :: h' :: r0 :: rs).getLastD [] = (h' :: r0 :: rs).getLastD [] := rfl
            rw [this, ih.2]
        · rw [if_neg ha]
          constructor
          · show ((a :: h') :: r0 :: rs).dropLast.flatten = (a :: A).filter (fun c => c ≠ sep)
            have h1 : ((a :: h') :: r0 :: rs).dropLast = (a :: h') :: (r0 :: rs).dropLast := rfl
            have h2 : (h' :: r0 :: rs).dropLast = h' :: (r0 :: rs).dropLast := rfl
            rw [h1]
            simp only [List.flatten_cons]
            rw [h2] at ih
            simp only [List.flatten_cons] at ih
            rw [List.filter_cons_of_pos (by simp [ha]), ← ih.1]
            simp
          · show ((a :: h') :: r0 :: rs).getLastD [] = B
            have h1 : ((a :: h') :: r0 :: rs).getLastD [] = (r0 :: rs).getLastD (a :: h') := rfl
            have h2 : (h' :: r0 :: rs).getLastD [] = (r0 :: rs).getLastD h' := rfl
            have h3 : ∀ x y : List Char, (r0 :: rs).getLastD x = (r0 :: rs).getLastD y := by
              intro x y
              rfl
            rw [h1, h3 _ h']
            rw [h2] at ih
            exact ih.2

/-- Removing embedded minus signs is the identity on minus-free strings. -/
theorem removeNonLeadingMinus_eq_self {l : List Char} (h : '-' ∉ l) :
    removeNonLeadingMinus l = l := by
  unfold removeNonLeadingMinus
  rw [if_neg]
  · exact List.filter_eq_self.mpr fun c hc => by
      simp only [decide_eq_true_iff]
      exact fun heq => h (heq ▸ hc)
  · intro hhead
    rcases l with _ | ⟨a, t⟩
    · simp at hhead
    · simp only [List.head?_cons, Option.some.injEq] at hhead
      exact h (hhead ▸ List.mem_cons_self _ _)

/-- The empty digit string reads as zero. -/
theorem digitsToNat_nil : digitsToNat [] = 0 := rfl

/-- `parseFloat` on a non-empty all-digit string. -/
theorem parseFloatMag_digits {l : List Char} (hd : ∀ c ∈ l, c.isDigit = true) (hne : l ≠ []) :
    parseFloatMag l = some ((digitsToNat l : ℚ)) := by
  simp only [parseFloatMag, takeWhile_eq_self_of_all hd, dropWhile_eq_nil_of_all hd]
  simp [hne, digitsToNat_nil]

/-- `parseFloat` on `digits.digits` (either side possibly empty but not
both). -/
theorem parseFloatMag_decimal {A B : List Char} (hA : ∀ c ∈ A, c.isDigit = true)
    (hB : ∀ c ∈ B, c.isDigit = true) (hne : A ≠ [] ∨ B ≠ []) :
    parseFloatMag (A ++ '.' :: B)
      = some ((digitsToNat A : ℚ) + (digitsToNat B : ℚ) / 10 ^ B.length) := by
  simp only [parseFloatMag, @takeWhile_append_stop Char.isDigit '.' (by decide) A B hA,
    @dropWhile_append_stop Char.isDigit '.' (by decide) A B hA, List.head?_cons,
    List.tail_cons, takeWhile_eq_self_of_all hB]
  rcases hne with hne | hne
  · rw [if_neg (by simp [hne])]
    simp
  · rw [if_neg (by simp [hne])]
    simp

/-- `parseFloat` without a leading sign character. -/
theorem parseFloatQ_of_no_sign {l : List Char} (h1 : l.head? ≠ some '-')
    (h2 : l.head? ≠ some '+') : parseFloatQ l = parseFloatMag l := by
  unfold parseFloatQ
  rw [if_neg h1, if_neg h2]

/-- The comma-to-dot replacement is the identity on comma-free strings. -/
theorem jsReplaceCommaDot_of_not_mem {l : List Char} (h : ',' ∉ l) :
    jsReplaceCommaDot l = l := by
  unfold jsReplaceCommaDot
  induction l with
  | nil => rfl
  | cons a t ih =>
    have hat : ',' ∉ t := fun hm => h (List.mem_cons_of_mem _ hm)
    have hac : a ≠ ',' := fun heq => h (heq ▸ List.mem_cons_self _ _)
    rw [List.map_cons, if_neg hac, ih hat]

/-- The comma-to-dot replacement on `X ++ ',' :: d` with comma-free `X`
and `d`. -/
theorem jsReplaceCommaDot_append {X d : List Char} (hX : ',' ∉ X) (hd : ',' ∉ d) :
    jsReplaceCommaDot (X ++ ',' :: d) = X ++ '.' :: d := by
  unfold jsReplaceCommaDot
  rw [List.map_append, List.map_cons, if_pos rfl]
  have h1 : X.map (fun c => if c = ',' then '.' else c) = X := jsReplaceCommaDot_of_not_mem hX
  have h2 : d.map (fun c => if c = ',' then '.' else c) = d := jsReplaceCommaDot_of_not_mem hd
  rw [h1, h2]

/-- An all-digit string does not start with a sign character. -/
theorem head?_ne_sign_of_all_digits {l : List Char} (h : ∀ c ∈ l, c.isDigit = true) :
    l.head? ≠ some '-' ∧ l.head? ≠ some '+' := by
  cases l with
  | nil => simp
  | cons x xs =>
    have hx := h x (List.mem_cons_self _ _)
    constructor <;> intro hh <;> simp only [List.head?_cons, Option.some.injEq] at hh <;>
      rw [hh] at hx <;> exact absurd hx (by decide)

/-- A `digits.digits` string does not start with a sign character. -/
theorem head?_ne_sign_of_decimal {X d : List Char} (hX : ∀ c ∈ X, c.isDigit = true) :
    (X ++ '.' :: d).head? ≠ some '-' ∧ (X ++ '.' :: d).head? ≠ some '+' := by
  cases X with
  | nil => simp
  | cons x xs =>
    have hx := hX x (List.mem_cons_self _ _)
    constructor <;> intro hh <;>
      simp only [List.cons_append, List.head?_cons, Option.some.injEq] at hh <;>
      rw [hh] at hx <;> exact absurd hx (by decide)

/-- C6: for amount strings of the shape `integer-part ++ u ++ fraction`
where the integer part is digits grouped by the thousands separator `t`,
the fraction is digits, and `{t, u} = {',', '.'}` with at least one `t`
present, `parseNumberFromText` treats the rightmost separator (`u`, the
last separator occurrence in the string) as the decimal separator and
strips every `t` as a thousands separator: the value is the digits of
the integer part with `t` removed, plus the fraction digits scaled. -/
theorem parseNumberFromText_both_separators (I d : List Char) (t u : Char)
    (hsep : (t = ',' ∧ u = '.') ∨ (t = '.' ∧ u = ','))
    (hI : ∀ c ∈ I, c.isDigit = true ∨ c = t)
    (ht : t ∈ I) (hd : d ≠ []) (hdig : ∀ c ∈ d, c.isDigit = true) :
    parseNumberFromText (I ++ u :: d)
      = some ((digitsToNat (I.filter fun c => c ≠ t) : ℚ)
          + (digitsToNat d : ℚ) / 10 ^ d.length) := by
  have hIfd : ∀ c ∈ I.filter (fun c => c ≠ t), c.isDigit = true := by
    intro c hc
    rw [List.mem_filter] at hc
    rcases hI c hc.1 with h1 | h1
    · exact h1
    · exact absurd h1 (by simpa using hc.2)
  rcases hsep with ⟨ht', hu'⟩ | ⟨ht', hu'⟩
  · -- decimal separator is '.', thousands separator is ','
    subst ht' hu'
    have hclean : cleanup (I ++ '.' :: d) = I ++ '.' :: d := by
      apply cleanup_eq_self
      intro c hc
      rcases List.mem_append.mp hc with h | h
      · rcases hI c h with h1 | h1
        · exact keepChar_of_digit h1
        · rw [h1]
          decide
      · rcases List.mem_cons.mp h with h1 | h1
        · rw [h1]
          decide
        · exact keepChar_of_digit (hdig c h1)
    have hne : ¬ I ++ '.' :: d = [] := by simp
    have hdotd : '.' ∉ d := not_mem_of_all_digit (by decide) hdig
    have hcommad : ',' ∉ d := not_mem_of_all_digit (by decide) hdig
    have hdotI : '.' ∉ I := by
      intro hm
      rcases hI _ hm with h1 | h1
      · exact absurd h1 (by decide)
      · exact absurd h1 (by decide)
    have hcount1 : 0 < (I ++ '.' :: d).count ',' :=
      List.count_pos_iff.mpr (List.mem_append_left _ ht)
    have hcount2 : 0 < (I ++ '.' :: d).count '.' :=
      List.count_pos_iff.mpr (List.mem_append_right _ (List.mem_cons_self _ _))
    have hlastDot : lastIndexOf '.' (I ++ '.' :: d) = I.length :=
      lastIndexOf_append_cons_self hdotd I
    have hlastComma : lastIndexOf ',' (I ++ '.' :: d) = lastIndexOf ',' I :=
      lastIndexOf_append_of_not_mem (by simp [hcommad]) I
    have hcond : ¬ (lastIndexOf ',' (I ++ '.' :: d) > lastIndexOf '.' (I ++ '.' :: d)) := by
      rw [hlastDot, hlastComma]
      have := lastIndexOf_lt_length ',' I
      omega
    have hstrip : stripThousands ',' (I ++ '.' :: d) = (I.filter fun c => c ≠ ',') ++ '.' :: d := by
      unfold stripThousands
      rw [List.filter_append, List.filter_cons_of_pos (by decide)]
      congr 2
      exact List.filter_eq_self.mpr fun c hc => decide_eq_true (digit_ne (hdig c hc)).2.2.1
    have hXdot : '.' ∉ I.filter (fun c => c ≠ ',') := fun hm => hdotI (List.mem_filter.mp hm).1
    have hcollapse : collapseToLast '.' ((I.filter fun c => c ≠ ',') ++ '.' :: d)
        = (I.filter fun c => c ≠ ',') ++ '.' :: d := by
      unfold collapseToLast
      rw [splitOnChar_append hXdot hdotd]
      simp
    have hnominus : '-' ∉ (I.filter fun c => c ≠ ',') ++ '.' :: d := by
      intro hm
      rcases List.mem_append.mp hm with h | h
      · exact absurd (hIfd _ h) (by decide)
      · rcases List.mem_cons.mp h with h1 | h1
        · exact absurd h1 (by decide)
        · exact absurd (hdig _ h1) (by decide)
    have hhead := head?_ne_sign_of_decimal (d := d) hIfd
    unfold parseNumberFromText
    rw [hclean, if_neg hne, if_pos ⟨hcount1, hcount2⟩]
    unfold parseCaseBoth
    rw [if_neg hcond, hstrip, hcollapse, removeNonLeadingMinus_eq_self hnominus,
      parseFloatQ_of_no_sign hhead.1 hhead.2,
      parseFloatMag_decimal hIfd hdig (Or.inr hd)]
  · -- decimal separator is ',', thousands separator is '.'
    subst ht' hu'
    have hclean : cleanup (I ++ ',' :: d) = I ++ ',' :: d := by
      apply cleanup_eq_self
      intro c hc
      rcases List.mem_append.mp hc with h | h
      · rcases hI c h with h1 | h1
        · exact keepChar_of_digit h1
        · rw [h1]
          decide
      · rcases List.mem_cons.mp h with h1 | h1
        · rw [h1]
          decide
        · exact keepChar_of_digit (hdig c h1)
    have hne : ¬ I ++ ',' :: d = [] := by simp
    have hdotd : '.' ∉ d := not_mem_of_all_digit (by decide) hdig
    have hcommad : ',' ∉ d := not_mem_of_all_digit (by decide) hdig
    have hcommaI : ',' ∉ I := by
      intro hm
      rcases hI _ hm with h1 | h1
      · exact absurd h1 (by decide)
      · exact absurd h1 (by decide)
    have hcount1 : 0 < (I ++ ',' :: d).count '.' :=
      List.count_pos_iff.mpr (List.mem_append_left _ ht)
    have hcount2 : 0 < (I ++ ',' :: d).count ',' :=
      List.count_pos_iff.mpr (List.mem_append_right _ (List.mem_cons_self _ _))
    have hlastComma : lastIndexOf ',' (I ++ ',' :: d) = I.length :=
      lastIndexOf_append_cons_self hcommad I
    have hlastDot : lastIndexOf '.' (I ++ ',' :: d) = lastIndexOf '.' I :=
      lastIndexOf_append_of_not_mem (by simp [hdotd]) I
    have hcond : lastIndexOf ',' (I ++ ',' :: d) > lastIndexOf '.' (I ++ ',' :: d) := by
      rw [hlastComma, hlastDot]
      have := lastIndexOf_lt_length '.' I
      omega
    have hstrip : stripThousands '.' (I ++ ',' :: d) = (I.filter fun c => c ≠ '.') ++ ',' :: d := by
      unfold stripThousands
      rw [List.filter_append, List.filter_cons_of_pos (by decide)]
      congr 2
      exact List.filter_eq_self.mpr fun c hc => decide_eq_true (digit_ne (hdig c hc)).2.2.2
    have hXcomma : ',' ∉ I.filter (fun c => c ≠ '.') :=
      fun hm => hcommaI (List.mem_filter.mp hm).1
    have hcollapse : collapseToLast ',' ((I.filter fun c => c ≠ '.') ++ ',' :: d)
        = (I.filter fun c => c ≠ '.') ++ ',' :: d := by
      unfold collapseToLast
      rw [splitOnChar_append hXcomma hcommad]
      simp
    have hreplace : jsReplaceCommaDot ((I.filter fun c => c ≠ '.') ++ ',' :: d)
        = (I.filter fun c => c ≠ '.') ++ '.' :: d :=
      jsReplaceCommaDot_append hXcomma hcommad
    have hnominus : '-' ∉ (I.filter fun c => c ≠ '.') ++ '.' :: d := by
      intro hm
      rcases List.mem_append.mp hm with h | h
      · exact absurd (hIfd _ h) (by decide)
      · rcases List.mem_cons.mp h with h1 | h1
        · exact absurd h1 (by decide)
        · exact absurd (hdig _ h1) (by decide)
    have hhead := head?_ne_sign_of_decimal (d := d) hIfd
    unfold parseNumberFromText
    rw [hclean, if_neg hne, if_pos ⟨hcount2, hcount1⟩]
    unfold parseCaseBoth
    rw [if_pos hcond, hstrip, hcollapse, hreplace, removeNonLeadingMinus_eq_self hnominus,
      parseFloatQ_of_no_sign hhead.1 hhead.2,
      parseFloatMag_decimal hIfd hdig (Or.inr hd)]

/-- C6 witness: `parseAmount "1.234,56" = 1234.56` (rightmost separator
`,` is decimal) and `parseAmount "1,234.56" = 1234.56` (rightmost
separator `.` is decimal). -/
theorem parseNumberFromText_both_separators_example :
    parseAmount "1.234,56" = some (1234.56 : ℚ)
    ∧ parseAmount "1,234.56" = some (1234.56 : ℚ) := by
  constructor
  · have h := parseNumberFromText_both_separators ['1', '.', '2', '3', '4'] ['5', '6'] '.' ','
      (Or.inr ⟨rfl, rfl⟩) (by decide) (by decide) (by decide) (by decide)
    have hdata : "1.234,56".data = ['1', '.', '2', '3', '4'] ++ ',' :: ['5', '6'] := rfl
    rw [parseAmount, hdata, h,
      show List.filter (fun c => decide (c ≠ '.')) ['1', '.', '2', '3', '4'] = ['1', '2', '3', '4']
        from by decide,
      show digitsToNat ['1', '2', '3', '4'] = 1234 from by decide,
      show digitsToNat ['5', '6'] = 56 from by decide]
    norm_num
  · have h := parseNumberFromText_both_separators ['1', ',', '2', '3', '4'] ['5', '6'] ',' '.'
      (Or.inl ⟨rfl, rfl⟩) (by decide) (by decide) (by decide) (by decide)
    have hdata : "1,234.56".data = ['1', ',', '2', '3', '4'] ++ '.' :: ['5', '6'] := rfl
    rw [parseAmount, hdata, h,
      show List.filter (fun c => decide (c ≠ ',')) ['1', ',', '2', '3', '4'] = ['1', '2', '3', '4']
        from by decide,
      show digitsToNat ['1', '2', '3', '4'] = 1234 from by decide,
      show digitsToNat ['5', '6'] = 56 from by decide]
    norm_num

/-- Single separator type, trailing group of exactly 3 characters: the
separator is thousands — every occurrence is stripped and the digits are
concatenated (cases 2/3 of `parseNumberFromText`, `trailing === 3`). -/
theorem parse_single_sep_thousands (A D : List Char) (sep : Char)
    (hsep : sep = ',' ∨ sep = '.')
    (hA : ∀ c ∈ A, c.isDigit = true ∨ c = sep)
    (hD : D.length = 3) (hdig : ∀ c ∈ D, c.isDigit = true) :
    parseNumberFromText (A ++ sep :: D)
      = some ((digitsToNat ((A.filter fun c => c ≠ sep) ++ D) : ℚ)) := by
  have hDne : D ≠ [] := by
    intro h0
    rw [h0] at hD
    simp at hD
  have hXdig : ∀ c ∈ (A.filter fun c => c ≠ sep) ++ D, c.isDigit = true := by
    intro c hc
    rcases List.mem_append.mp hc with h | h
    · rw [List.mem_filter] at h
      rcases hA c h.1 with h1 | h1
      · exact h1
      · exact absurd h1 (by simpa using h.2)
    · exact hdig c h
  have hXne : (A.filter fun c => c ≠ sep) ++ D ≠ [] := by
    intro happ
    exact hDne (List.append_eq_nil.mp happ).2
  have hnominus : '-' ∉ (A.filter fun c => c ≠ sep) ++ D := by
    intro hm
    exact absurd (hXdig _ hm) (by decide)
  have hhead := head?_ne_sign_of_all_digits hXdig
  rcases hsep with hsep | hsep
  · subst hsep
    have hclean : cleanup (A ++ ',' :: D) = A ++ ',' :: D := by
      apply cleanup_eq_self
      intro c hc
      rcases List.mem_append.mp hc with h | h
      · rcases hA c h with h1 | h1
        · exact keepChar_of_digit h1
        · rw [h1]
          decide
      · rcases List.mem_cons.mp h with h1 | h1
        · rw [h1]
          decide
        · exact keepChar_of_digit (hdig c h1)
    have hne : ¬ A ++ ',' :: D = [] := by simp
    have hcommaD : ',' ∉ D := not_mem_of_all_digit (by decide) hdig
    have hdotD : '.' ∉ D := not_mem_of_all_digit (by decide) hdig
    have hdotA : '.' ∉ A := by
      intro hm
      rcases hA _ hm with h1 | h1
      · exact absurd h1 (by decide)
      · exact absurd h1 (by decide)
    have hdot0 : (A ++ ',' :: D).count '.' = 0 := by
      rw [List.count_eq_zero]
      intro hm
      rcases List.mem_append.mp hm with h | h
      · exact hdotA h
      · rcases List.mem_cons.mp h with h1 | h1
        · exact absurd h1 (by decide)
        · exact hdotD h1
    have hcommaPos : 0 < (A ++ ',' :: D).count ',' :=
      List.count_pos_iff.mpr (List.mem_append_right _ (List.mem_cons_self _ _))
    have hlast : lastIndexOf ',' (A ++ ',' :: D) = A.length :=
      lastIndexOf_append_cons_self hcommaD A
    have htrail : ((A ++ ',' :: D).length : Int) - lastIndexOf ',' (A ++ ',' :: D) - 1 = 3 := by
      rw [hlast, List.length_append, List.length_cons, hD]
      push_cast
      ring
    have hstrip : stripThousands ',' (A ++ ',' :: D) = (A.filter fun c => c ≠ ',') ++ D := by
      unfold stripThousands
      rw [List.filter_append, List.filter_cons_of_neg (by simp)]
      congr 1
      exact List.filter_eq_self.mpr fun c hc => decide_eq_true (digit_ne (hdig c hc)).2.2.1
    unfold parseNumberFromText
    rw [hclean, if_neg hne, if_neg (by simp [hdot0]), if_pos hcommaPos]
    unfold parseCaseComma
    rw [if_pos htrail, hstrip, removeNonLeadingMinus_eq_self hnominus,
      parseFloatQ_of_no_sign hhead.1 hhead.2, parseFloatMag_digits hXdig hXne]
  · subst hsep
    have hclean : cleanup (A ++ '.' :: D) = A ++ '.' :: D := by
      apply cleanup_eq_self
      intro c hc
      rcases List.mem_append.mp hc with h | h
      · rcases hA c h with h1 | h1
        · exact keepChar_of_digit h1
        · rw [h1]
          decide
      · rcases List.mem_cons.mp h with h1 | h1
        · rw [h1]
          decide
        · exact keepChar_of_digit (hdig c h1)
    have hne : ¬ A ++ '.' :: D = [] := by simp
    have hcommaD : ',' ∉ D := not_mem_of_all_digit (by decide) hdig
    have hdotD : '.' ∉ D := not_mem_of_all_digit (by decide) hdig
    have hcommaA : ',' ∉ A := by
      intro hm
      rcases hA _ hm with h1 | h1
      · exact absurd h1 (by decide)
      · exact absurd h1 (by decide)
    have hcomma0 : (A ++ '.' :: D).count ',' = 0 := by
      rw [List.count_eq_zero]
      intro hm
      rcases List.mem_append.mp hm with h | h
      · exact hcommaA h
      · rcases List.mem_cons.mp h with h1 | h1
        · exact absurd h1 (by decide)
        · exact hcommaD h1
    have hdotPos : 0 < (A ++ '.' :: D).count '.' :=
      List.count_pos_iff.mpr (List.mem_append_right _ (List.mem_cons_self _ _))
    have hlast : lastIndexOf '.' (A ++ '.' :: D) = A.length :=
      lastIndexOf_append_cons_self hdotD A
    have htrail : ((A ++ '.' :: D).length : Int) - lastIndexOf '.' (A ++ '.' :: D) - 1 = 3 := by
      rw [hlast, List.length_append, List.length_cons, hD]
      push_cast
      ring
    have hstrip : stripThousands '.' (A ++ '.' :: D) = (A.filter fun c => c ≠ '.') ++ D := by
      unfold stripThousands
      rw [List.filter_append, List.filter_cons_of_neg (by simp)]
      congr 1
      exact List.filter_eq_self.mpr fun c hc => decide_eq_true (digit_ne (hdig c hc)).2.2.2
    unfold parseNumberFromText
    rw [hclean, if_neg hne, if_neg (by simp [hcomma0]), if_neg (by simp [hcomma0]),
      if_pos hdotPos]
    unfold parseCaseDot
    rw [if_pos htrail, hstrip, removeNonLeadingMinus_eq_self hnominus,
      parseFloatQ_of_no_sign hhead.1 hhead.2, parseFloatMag_digits hXdig hXne]

/-- Single separator type `,`, trailing group of exactly 2 digits: the
last comma is decimal, all earlier commas are stripped as thousands —
whether the string has one comma (the replace-all path) or several (the
split/join path). -/
theorem parse_comma_two_decimal (A D : List Char)
    (hA : ∀ c ∈ A, c.isDigit = true ∨ c = ',')
    (hD : D.length = 2) (hdig : ∀ c ∈ D, c.isDigit = true) :
    parseNumberFromText (A ++ ',' :: D)
      = some ((digitsToNat (A.filter fun c => c ≠ ',') : ℚ) + (digitsToNat D : ℚ) / 100) := by
  have hDne : D ≠ [] := by
    intro h0
    rw [h0] at hD
    simp at hD
  have hXdig : ∀ c ∈ A.filter fun c => c ≠ ',', c.isDigit = true := by
    intro c hc
    rw [List.mem_filter] at hc
    rcases hA c hc.1 with h1 | h1
    · exact h1
    · exact absurd h1 (by simpa using hc.2)
  have hclean : cleanup (A ++ ',' :: D) = A ++ ',' :: D := by
    apply cleanup_eq_self
    intro c hc
    rcases List.mem_append.mp hc with h | h
    · rcases hA c h with h1 | h1
      · exact keepChar_of_digit h1
      · rw [h1]
        decide
    · rcases List.mem_cons.mp h with h1 | h1
      · rw [h1]
        decide
      · exact keepChar_of_digit (hdig c h1)
  have hne : ¬ A ++ ',' :: D = [] := by simp
  have hcommaD : ',' ∉ D := not_mem_of_all_digit (by decide) hdig
  have hdotD : '.' ∉ D := not_mem_of_all_digit (by decide) hdig
  have hdotA : '.' ∉ A := by
    intro hm
    rcases hA _ hm with h1 | h1
    · exact absurd h1 (by decide)
    · exact absurd h1 (by decide)
  have hdot0 : (A ++ ',' :: D).count '.' = 0 := by
    rw [List.count_eq_zero]
    intro hm
    rcases List.mem_append.mp hm with h | h
    · exact hdotA h
    · rcases List.mem_cons.mp h with h1 | h1
      · exact absurd h1 (by decide)
      · exact hdotD h1
  have hcommaPos : 0 < (A ++ ',' :: D).count ',' :=
    List.count_pos_iff.mpr (List.mem_append_right _ (List.mem_cons_self _ _))
  have hlast : lastIndexOf ',' (A ++ ',' :: D) = A.length :=
    lastIndexOf_append_cons_self hcommaD A
  have htrail : ¬ ((A ++ ',' :: D).length : Int) - lastIndexOf ',' (A ++ ',' :: D) - 1 = 3 := by
    rw [hlast, List.length_append, List.length_cons, hD]
    push_cast
    omega
  have hcnt : (A ++ ',' :: D).count ',' = A.count ',' + 1 := by
    rw [List.count_append, List.count_cons_self, List.count_eq_zero.mpr hcommaD]
  have hparts := splitOnChar_parts hcommaD A
  have hnominus : '-' ∉ (A.filter fun c => c ≠ ',') ++ '.' :: D := by
    intro hm
    rcases List.mem_append.mp hm with h | h
    · exact absurd (hXdig _ h) (by decide)
    · rcases List.mem_cons.mp h with h1 | h1
      · exact absurd h1 (by decide)
      · exact absurd (hdig _ h1) (by decide)
  have hhead := head?_ne_sign_of_decimal (d := D) hXdig
  unfold parseNumberFromText
  rw [hclean, if_neg hne, if_neg (by simp [hdot0]), if_pos hcommaPos]
  unfold parseCaseComma
  rw [if_neg htrail]
  by_cases hAc : ',' ∈ A
  · have hgt : 1 < (A ++ ',' :: D).count ',' := by
      rw [hcnt]
      have := List.count_pos_iff.mpr hAc
      omega
    rw [if_pos ⟨hgt, by rw [hparts.2]; exact hD⟩, hparts.1, hparts.2,
      removeNonLeadingMinus_eq_self hnominus, parseFloatQ_of_no_sign hhead.1 hhead.2,
      parseFloatMag_decimal hXdig hdig (Or.inr hDne), hD]
    norm_num
  · have hng : ¬ (1 < (A ++ ',' :: D).count ','
        ∧ ((splitOnChar ',' (A ++ ',' :: D)).getLastD []).length = 2) := by
      intro hcontra
      rw [hcnt, List.count_eq_zero.mpr hAc] at hcontra
      omega
    have hAdig : ∀ c ∈ A, c.isDigit = true := by
      intro c hc
      rcases hA c hc with h1 | h1
      · exact h1
      · exact absurd hc (h1 ▸ hAc)
    have hfil : A.filter (fun c => (c ≠ ',' : Bool)) = A :=
      List.filter_eq_self.mpr fun c hc => decide_eq_true fun heq => hAc (heq ▸ hc)
    rw [hfil] at hnominus
    rw [if_neg hng, jsReplaceCommaDot_append hAc hcommaD,
      removeNonLeadingMinus_eq_self hnominus,
      parseFloatQ_of_no_sign (head?_ne_sign_of_decimal (d := D) hAdig).1
        (head?_ne_sign_of_decimal (d := D) hAdig).2,
      parseFloatMag_decimal hAdig hdig (Or.inr hDne), hD, hfil]
    norm_num

/-- A single occurrence of either separator with a trailing group that is
not 3 characters long is decimal (cases 2/3, final `parseFloat` path). -/
theorem parse_single_sep_decimal (A D : List Char) (sep : Char)
    (hsep : sep = ',' ∨ sep = '.')
    (hA : ∀ c ∈ A, c.isDigit = true) (hAne : A ≠ [])
    (hD3 : D.length ≠ 3) (hdig : ∀ c ∈ D, c.isDigit = true) :
    parseNumberFromText (A ++ sep :: D)
      = some ((digitsToNat A : ℚ) + (digitsToNat D : ℚ) / 10 ^ D.length) := by
  have hcommaD : ',' ∉ D := not_mem_of_all_digit (by decide) hdig
  have hdotD : '.' ∉ D := not_mem_of_all_digit (by decide) hdig
  have hcommaA : ',' ∉ A := not_mem_of_all_digit (by decide) hA
  have hdotA : '.' ∉ A := not_mem_of_all_digit (by decide) hA
  have hnominus : '-' ∉ A ++ '.' :: D := by
    intro hm
    rcases List.mem_append.mp hm with h | h
    · exact absurd (hA _ h) (by decide)
    · rcases List.mem_cons.mp h with h1 | h1
      · exact absurd h1 (by decide)
      · exact absurd (hdig _ h1) (by decide)
  have hhead := head?_ne_sign_of_decimal (d := D) hA
  rcases hsep with hsep | hsep
  · subst hsep
    have hclean : cleanup (A ++ ',' :: D) = A ++ ',' :: D := by
      apply cleanup_eq_self
      intro c hc
      rcases List.mem_append.mp hc with h | h
      · exact keepChar_of_digit (hA c h)
      · rcases List.mem_cons.mp h with h1 | h1
        · rw [h1]
          decide
        · exact keepChar_of_digit (hdig c h1)
    have hne : ¬ A ++ ',' :: D = [] := by simp
    have hdot0 : (A ++ ',' :: D).count '.' = 0 := by
      rw [List.count_eq_zero]
      intro hm
      rcases List.mem_append.mp hm with h | h
      · exact hdotA h
      · rcases List.mem_cons.mp h with h1 | h1
        · exact absurd h1 (by decide)
        · exact hdotD h1
    have hcommaPos : 0 < (A ++ ',' :: D).count ',' :=
      List.count_pos_iff.mpr (List.mem_append_right _ (List.mem_cons_self _ _))
    have hlast : lastIndexOf ',' (A ++ ',' :: D) = A.length :=
      lastIndexOf_append_cons_self hcommaD A
    have htrail : ¬ ((A ++ ',' :: D).length : Int) - lastIndexOf ',' (A ++ ',' :: D) - 1 = 3 := by
      rw [hlast, List.length_append, List.length_cons]
      push_cast
      omega
    have hcnt : (A ++ ',' :: D).count ',' = A.count ',' + 1 := by
      rw [List.count_append, List.count_cons_self, List.count_eq_zero.mpr hcommaD]
    have hng : ¬ (1 < (A ++ ',' :: D).count ','
        ∧ ((splitOnChar ',' (A ++ ',' :: D)).getLastD []).length = 2) := by
      intro hcontra
      rw [hcnt, List.count_eq_zero.mpr hcommaA] at hcontra
      omega
    unfold parseNumberFromText
    rw [hclean, if_neg hne, if_neg (by simp [hdot0]), if_pos hcommaPos]
    unfold parseCaseComma
    rw [if_neg htrail, if_neg hng, jsReplaceCommaDot_append hcommaA hcommaD,
      removeNonLeadingMinus_eq_self hnominus, parseFloatQ_of_no_sign hhead.1 hhead.2,
      parseFloatMag_decimal hA hdig (Or.inl hAne)]
  · subst hsep
    have hclean : cleanup (A ++ '.' :: D) = A ++ '.' :: D := by
      apply cleanup_eq_self
      intro c hc
      rcases List.mem_append.mp hc with h | h
      · exact keepChar_of_digit (hA c h)
      · rcases List.mem_cons.mp h with h1 | h1
        · rw [h1]
          decide
        · exact keepChar_of_digit (hdig c h1)
    have hne : ¬ A ++ '.' :: D = [] := by simp
    have hcomma0 : (A ++ '.' :: D).count ',' = 0 := by
      rw [List.count_eq_zero]
      intro hm
      rcases List.mem_append.mp hm with h | h
      · exact hcommaA h
      · rcases List.mem_cons.mp h with h1 | h1
        · exact absurd h1 (by decide)
        · exact hcommaD h1
    have hdotPos : 0 < (A ++ '.' :: D).count '.' :=
      List.count_pos_iff.mpr (List.mem_append_right _ (List.mem_cons_self _ _))
    have hlast : lastIndexOf '.' (A ++ '.' :: D) = A.length :=
      lastIndexOf_append_cons_self hdotD A
    have htrail : ¬ ((A ++ '.' :: D).length : Int) - lastIndexOf '.' (A ++ '.' :: D) - 1 = 3 := by
      rw [hlast, List.length_append, List.length_cons]
      push_cast
      omega
    unfold parseNumberFromText
    rw [hclean, if_neg hne, if_neg (by simp [hcomma0]), if_neg (by simp [hcomma0]),
      if_pos hdotPos]
    unfold parseCaseDot
    rw [if_neg htrail, removeNonLeadingMinus_eq_self hnominus,
      parseFloatQ_of_no_sign hhead.1 hhead.2, parseFloatMag_decimal hA hdig (Or.inl hAne)]

/-- C7 counterexample: with multiple `.` separators and a trailing group
of exactly 2 digits the claim says decimal (`1234.56`), but the code's
dot case has no multi-dot decimal branch: `parseFloat("1.234.56")` stops
at the second dot and the result is `1.234`. -/
theorem parseAmount_multi_dot_counterexample :
    parseAmount "1.234.56" = some (1.234 : ℚ) ∧ ¬ ((1.234 : ℚ) = 1234.56) := by
  constructor
  · simp [parseAmount, parseNumberFromText, cleanup, keepChar, parseCaseBoth, parseCaseComma,
      parseCaseDot, stripThousands, collapseToLast, jsReplaceCommaDot, removeNonLeadingMinus,
      parseFloatQ, parseFloatMag, digitsToNat, lastIndexOf, splitOnChar]
    norm_num
  · norm_num

/-- C7 (amended): for strings with a single separator type, a trailing
group of exactly 3 digits after the last occurrence is stripped (with
every other occurrence of that separator) as thousands; a trailing group
of exactly 2 digits is decimal when the separator is `,` (earlier commas
stripped as thousands); a SINGLE occurrence of either separator with a
trailing group that is not 3 digits is decimal; but with multiple `.`
separators and a non-3 trailing group parsing truncates at the second
dot: `parseAmount "1.234.56" = 1.234`, not `1234.56`. -/
theorem parseNumberFromText_single_separator_amended :
    (∀ (A D : List Char) (sep : Char), sep = ',' ∨ sep = '.' →
        (∀ c ∈ A, c.isDigit = true ∨ c = sep) → D.length = 3 →
        (∀ c ∈ D, c.isDigit = true) →
        parseNumberFromText (A ++ sep :: D)
          = some ((digitsToNat ((A.filter fun c => c ≠ sep) ++ D) : ℚ)))
    ∧ (∀ A D : List Char, (∀ c ∈ A, c.isDigit = true ∨ c = ',') → D.length = 2 →
        (∀ c ∈ D, c.isDigit = true) →
        parseNumberFromText (A ++ ',' :: D)
          = some ((digitsToNat (A.filter fun c => c ≠ ',') : ℚ) + (digitsToNat D : ℚ) / 100))
    ∧ (∀ (A D : List Char) (sep : Char), sep = ',' ∨ sep = '.' →
        (∀ c ∈ A, c.isDigit = true) → A ≠ [] → D.length ≠ 3 →
        (∀ c ∈ D, c.isDigit = true) →
        parseNumberFromText (A ++ sep :: D)
          = some ((digitsToNat A : ℚ) + (digitsToNat D : ℚ) / 10 ^ D.length))
    ∧ parseAmount "1.234.56" = some (1.234 : ℚ) := by
  refine ⟨parse_single_sep_thousands, parse_comma_two_decimal, parse_single_sep_decimal, ?_⟩
  simp [parseAmount, parseNumberFromText, cleanup, keepChar, parseCaseBoth, parseCaseComma,
    parseCaseDot, stripThousands, collapseToLast, jsReplaceCommaDot, removeNonLeadingMinus,
    parseFloatQ, parseFloatMag, digitsToNat, lastIndexOf, splitOnChar]
  norm_num

/-- C7 witness: `parseAmount "10,000" = 10000` (single comma, 3 trailing
digits, thousands) and `parseAmount "12,5" = 12.5` (single comma, non-3
trailing group, decimal). -/
theorem parseNumberFromText_single_separator_example :
    parseAmount "10,000" = some (10000 : ℚ) ∧ parseAmount "12,5" = some (12.5 : ℚ) := by
  obtain ⟨hthous, _, hdec, _⟩ := parseNumberFromText_single_separator_amended
  constructor
  · have h := hthous ['1', '0'] ['0', '0', '0'] ',' (Or.inl rfl) (by decide) (by decide)
      (by decide)
    have hdata : "10,000".data = ['1', '0'] ++ ',' :: ['0', '0', '0'] := rfl
    rw [parseAmount, hdata, h,
      show digitsToNat (List.filter (fun c => decide (c ≠ ',')) ['1', '0'] ++ ['0', '0', '0'])
          = 10000 from by decide]
    norm_num
  · have h := hdec ['1', '2'] ['5'] ',' (Or.inl rfl) (by decide) (by decide) (by decide)
      (by decide)
    have hdata : "12,5".data = ['1', '2'] ++ ',' :: ['5'] := rfl
    rw [parseAmount, hdata, h, show digitsToNat ['1', '2'] = 12 from by decide,
      show digitsToNat ['5'] = 5 from by decide]
    norm_num

end Firefish
